import Mathlib

/-!
Verification of the HoraeDB storage-engine specification against a shallow
embedding of the relevant source modules:

* `wal/src/table_kv_impl/table_unit.rs` (sequence allocation, split encoder,
  log collector, deletion, last-sequence recovery),
* `wal/src/manager.rs` (read boundaries),
* `analytic_engine/src/memtable/key.rs` (internal-key codec),
* `common_types/src/row/contiguous.rs` (contiguous row writer/reader),
* `components/object_store/src/mem_cache.rs` (partitioned LRU byte cache),
* `analytic_engine/src/instance/open.rs` (shard open state machine).

Machine integers are modelled as `Nat` with explicit `% 2 ^ 64` (resp.
`% 2 ^ 32`) wherever the Rust code can wrap, and fallible code returns
`Except`/`Option`.
-/

namespace HoraeSpec

/-- Modulus of 64-bit unsigned arithmetic. -/
def U64 : Nat := 2 ^ 64

/-- Modulus of 32-bit unsigned arithmetic. -/
def U32 : Nat := 2 ^ 32

/-- Largest sequence number (`u64::MAX`), `common_types::MAX_SEQUENCE_NUMBER`. -/
def MAX_SEQUENCE_NUMBER : Nat := U64 - 1

/-- Smallest sequence number, `common_types::MIN_SEQUENCE_NUMBER`. -/
def MIN_SEQUENCE_NUMBER : Nat := 0

/-- Big-endian encoding of a natural number into a fixed number of bytes,
most significant byte first, as in the Rust `to_be_bytes` methods. -/
def beBytes : Nat → Nat → List Nat
  | 0, _ => []
  | k + 1, n => n / 256 ^ k :: beBytes k (n % 256 ^ k)

/-- Value of a big-endian byte string, as in the Rust `from_be_bytes` methods. -/
def beVal (l : List Nat) : Nat := l.foldl (fun acc b => acc * 256 + b) 0

theorem beBytes_length (k n : Nat) : (beBytes k n).length = k := by
  induction k generalizing n with
  | zero => rfl
  | succ k ih => simp [beBytes, ih]

theorem beBytes_foldl (k n a : Nat) (h : n < 256 ^ k) :
    (beBytes k n).foldl (fun acc b => acc * 256 + b) a = a * 256 ^ k + n := by
  induction k generalizing n a with
  | zero =>
    have : n = 0 := Nat.lt_one_iff.mp (by simpa using h)
    simp [beBytes, this]
  | succ k ih =>
    have hpow : 0 < 256 ^ k := Nat.pos_pow_of_pos k (by norm_num)
    have hmod : n % 256 ^ k < 256 ^ k := Nat.mod_lt _ hpow
    have := ih (n % 256 ^ k) (a * 256 + n / 256 ^ k) hmod
    simp only [beBytes, List.foldl_cons]
    rw [this]
    have hdm : 256 ^ k * (n / 256 ^ k) + n % 256 ^ k = n := Nat.div_add_mod n (256 ^ k)
    ring_nf
    ring_nf at hdm ⊢
    omega

theorem beVal_beBytes (k n : Nat) (h : n < 256 ^ k) : beVal (beBytes k n) = n := by
  simpa using beBytes_foldl k n 0 h

/-- Lexicographic comparison of byte strings, element first and length as the
tie-breaker, matching the `Ord` instance of Rust slices. -/
def listCompare : List Nat → List Nat → Ordering
  | [], [] => .eq
  | [], _ :: _ => .lt
  | _ :: _, [] => .gt
  | a :: as, b :: bs =>
    match compare a b with
    | .eq => listCompare as bs
    | o => o

theorem listCompare_cons (a b : Nat) (as bs : List Nat) :
    listCompare (a :: as) (b :: bs) =
      (compare a b).then (listCompare as bs) := by
  rcases h : compare a b with _ | _ | _ <;> simp [listCompare, h, Ordering.then]

theorem listCompare_append (x y x2 y2 : List Nat) (h : x.length = x2.length) :
    listCompare (x ++ y) (x2 ++ y2) =
      (listCompare x x2).then (listCompare y y2) := by
  induction x generalizing x2 with
  | nil =>
    cases x2 with
    | nil => simp [listCompare, Ordering.then]
    | cons b bs => simp at h
  | cons a as ih =>
    cases x2 with
    | nil => simp at h
    | cons b bs =>
      simp only [List.cons_append, listCompare_cons]
      rw [ih bs (by simpa using h)]
      rcases compare a b <;> simp [Ordering.then]

theorem lt_of_div_lt_div {n m d : Nat} (h : n / d < m / d) : n < m := by
  by_contra hc
  push_neg at hc
  exact absurd (Nat.div_le_div_right hc) (Nat.not_le_of_lt h)

theorem natCompare_eq_of_parts {n m d : Nat} (_hd : 0 < d)
    (hq : n / d = m / d) : compare n m = compare (n % d) (m % d) := by
  have hn := Nat.div_add_mod n d
  have hm := Nat.div_add_mod m d
  rw [hq] at hn
  rcases Nat.lt_trichotomy (n % d) (m % d) with h | h | h
  · have hlt : n < m := by omega
    simp [Nat.compare_eq_lt.mpr hlt, Nat.compare_eq_lt.mpr h]
  · have heq : n = m := by omega
    rw [heq, Nat.compare_eq_eq.mpr rfl, Nat.compare_eq_eq.mpr rfl]
  · have hgt : m < n := by omega
    simp [Nat.compare_eq_gt.mpr hgt, Nat.compare_eq_gt.mpr h]

theorem beBytes_compare (k n m : Nat) (hn : n < 256 ^ k) (hm : m < 256 ^ k) :
    listCompare (beBytes k n) (beBytes k m) = compare n m := by
  induction k generalizing n m with
  | zero =>
    have hn0 : n = 0 := Nat.lt_one_iff.mp (by simpa using hn)
    have hm0 : m = 0 := Nat.lt_one_iff.mp (by simpa using hm)
    simp only [beBytes, listCompare, hn0, hm0]
    exact (Nat.compare_eq_eq.mpr rfl).symm
  | succ k ih =>
    have hpow : 0 < 256 ^ k := Nat.pos_pow_of_pos k (by norm_num)
    simp only [beBytes, listCompare_cons]
    rcases hcmp : compare (n / 256 ^ k) (m / 256 ^ k) with _ | _ | _
    · have hlt : n / 256 ^ k < m / 256 ^ k := Nat.compare_eq_lt.mp hcmp
      have : n < m := lt_of_div_lt_div hlt
      simp [Nat.compare_eq_lt.mpr this, Ordering.then]
    · have heq : n / 256 ^ k = m / 256 ^ k := Nat.compare_eq_eq.mp hcmp
      rw [ih _ _ (Nat.mod_lt _ hpow) (Nat.mod_lt _ hpow)]
      rw [natCompare_eq_of_parts hpow heq]
      simp [Ordering.then]
    · have hgt : m / 256 ^ k < n / 256 ^ k := Nat.compare_eq_gt.mp hcmp
      have : m < n := lt_of_div_lt_div hgt
      simp [Nat.compare_eq_gt.mpr this, Ordering.then]

theorem compare_sub_rev {a b M : Nat} (ha : a ≤ M) (hb : b ≤ M) :
    compare (M - a) (M - b) = compare b a := by
  rcases Nat.lt_trichotomy b a with h | h | h
  · have : M - a < M - b := by omega
    simp [Nat.compare_eq_lt.mpr this, Nat.compare_eq_lt.mpr h]
  · rw [h, Nat.compare_eq_eq.mpr rfl, Nat.compare_eq_eq.mpr rfl]
  · have : M - b < M - a := by omega
    simp [Nat.compare_eq_gt.mpr this, Nat.compare_eq_gt.mpr h]


/-! Embedding of `analytic_engine/src/memtable/key.rs` (claim C3). -/

/-- Length in bytes of the encoded key sequence (`u64` + `u32`). -/
def KEY_SEQUENCE_BYTES_LEN : Nat := 12

/-- Sequence number of a row in the memtable: WAL sequence plus the unique
index of the row inside its write batch. -/
structure KeySequence where
  sequence : Nat
  rowIndex : Nat
deriving DecidableEq, Repr

/-- Encoder half of `SequenceCodec`: both components are stored in descending
order as `MAX - value`, big-endian (u64 then u32). -/
def sequenceCodecEncode (v : KeySequence) : List Nat :=
  beBytes 8 (MAX_SEQUENCE_NUMBER - v.sequence) ++ beBytes 4 ((U32 - 1) - v.rowIndex)

/-- Decoder half of `SequenceCodec`: reads a big-endian u64 and u32 and
reverses both (`MAX - value`); `none` models the buffer-underflow errors. -/
def sequenceCodecDecode (buf : List Nat) : Option KeySequence :=
  if buf.length < 8 then none
  else
    let sequence := MAX_SEQUENCE_NUMBER - beVal (buf.take 8)
    let rest := buf.drop 8
    if rest.length < 4 then none
    else some ⟨sequence, (U32 - 1) - beVal (rest.take 4)⟩

/-- Internal memtable key: encoded user key bytes followed by the encoded
12-byte key sequence, as produced by `ComparableInternalKey::encode`. -/
def internalKey (userKey : List Nat) (s : KeySequence) : List Nat :=
  userKey ++ sequenceCodecEncode s

/-- Source translation of `user_key_from_internal_key`: requires a length
strictly above 12, splits off the 12-byte tail and decodes it. -/
def user_key_from_internal_key (internal : List Nat) :
    Option (List Nat × KeySequence) :=
  if internal.length ≤ KEY_SEQUENCE_BYTES_LEN then none
  else
    match sequenceCodecDecode (internal.drop (internal.length - KEY_SEQUENCE_BYTES_LEN)) with
    | some s => some (internal.take (internal.length - KEY_SEQUENCE_BYTES_LEN), s)
    | none => none

/-- Ordering as worded by the spec: user key ascending, then
(sequence, row index) descending. This definition follows the wording of the
specification and is compared against the bytewise order of encoded keys. -/
def specKeyCompare (a b : List Nat × KeySequence) : Ordering :=
  (listCompare a.1 b.1).then
    ((compare b.2.sequence a.2.sequence).then (compare b.2.rowIndex a.2.rowIndex))

/-- Proposition that `a` strictly extends `b`, i.e. `b` is a proper initial
segment of `a`. -/
def strictExtends (a b : List Nat) : Prop := ∃ t, t ≠ [] ∧ a = b ++ t

theorem sequenceCodecEncode_length (s : KeySequence) :
    (sequenceCodecEncode s).length = KEY_SEQUENCE_BYTES_LEN := by
  simp [sequenceCodecEncode, beBytes_length, KEY_SEQUENCE_BYTES_LEN]

theorem sequenceCodecDecode_encode (s : KeySequence)
    (hs : s.sequence ≤ MAX_SEQUENCE_NUMBER) (hi : s.rowIndex < U32) :
    sequenceCodecDecode (sequenceCodecEncode s) = some s := by
  have h8 : (beBytes 8 (MAX_SEQUENCE_NUMBER - s.sequence)).length = 8 := beBytes_length _ _
  have hseq : MAX_SEQUENCE_NUMBER - s.sequence < 256 ^ 8 := by
    have : MAX_SEQUENCE_NUMBER < 256 ^ 8 := by norm_num [MAX_SEQUENCE_NUMBER, U64]
    omega
  have hidx : (U32 - 1) - s.rowIndex < 256 ^ 4 := by
    have : U32 - 1 < 256 ^ 4 := by norm_num [U32]
    omega
  unfold sequenceCodecDecode sequenceCodecEncode
  rw [List.take_left' h8, List.drop_left' h8]
  simp only [beBytes_length, List.length_append]
  rw [List.take_of_length_le (by simp [beBytes_length])]
  rw [beVal_beBytes _ _ hseq, beVal_beBytes _ _ hidx]
  have e1 : MAX_SEQUENCE_NUMBER - (MAX_SEQUENCE_NUMBER - s.sequence) = s.sequence := by omega
  have e2 : (U32 - 1) - ((U32 - 1) - s.rowIndex) = s.rowIndex := by
    have : s.rowIndex ≤ U32 - 1 := by omega
    omega
  simp [e1, e2]

theorem sequenceCodecEncode_compare (s1 s2 : KeySequence)
    (h1 : s1.sequence ≤ MAX_SEQUENCE_NUMBER) (h2 : s2.sequence ≤ MAX_SEQUENCE_NUMBER)
    (hi1 : s1.rowIndex < U32) (hi2 : s2.rowIndex < U32) :
    listCompare (sequenceCodecEncode s1) (sequenceCodecEncode s2) =
      (compare s2.sequence s1.sequence).then (compare s2.rowIndex s1.rowIndex) := by
  have hb : MAX_SEQUENCE_NUMBER < 256 ^ 8 := by norm_num [MAX_SEQUENCE_NUMBER, U64]
  have hb4 : U32 - 1 < 256 ^ 4 := by norm_num [U32]
  unfold sequenceCodecEncode
  rw [listCompare_append _ _ _ _ (by rw [beBytes_length, beBytes_length])]
  rw [beBytes_compare 8 _ _ (by omega) (by omega)]
  rw [beBytes_compare 4 _ _ (by omega) (by omega)]
  rw [compare_sub_rev (by omega) (by omega), compare_sub_rev (by omega) (by omega)]

theorem listCompare_append_of_not_ext (x y x2 y2 : List Nat)
    (hp : ¬ strictExtends x x2) (hq : ¬ strictExtends x2 x) :
    listCompare (x ++ y) (x2 ++ y2) =
      (listCompare x x2).then (listCompare y y2) := by
  induction x generalizing x2 with
  | nil =>
    cases x2 with
    | nil => simp [listCompare, Ordering.then]
    | cons b bs =>
      exact absurd ⟨b :: bs, by simp, by simp⟩ hq
  | cons a as ih =>
    cases x2 with
    | nil => exact absurd ⟨a :: as, by simp, by simp⟩ hp
    | cons b bs =>
      simp only [List.cons_append, listCompare_cons]
      rcases hab : compare a b with _ | _ | _
      · simp [Ordering.then]
      · have heq : a = b := Nat.compare_eq_eq.mp hab
        subst heq
        have hp2 : ¬ strictExtends as bs := by
          rintro ⟨t, ht, he⟩
          exact hp ⟨t, ht, by simp [he]⟩
        have hq2 : ¬ strictExtends bs as := by
          rintro ⟨t, ht, he⟩
          exact hq ⟨t, ht, by simp [he]⟩
        rw [ih bs hp2 hq2]
        simp [Ordering.then]
      · simp [Ordering.then]

/-- Claim C3 (amended): decoding the internal key obtained by appending the
12-byte key sequence to a non-empty user key returns the same triple, and
bytewise comparison of two encoded internal keys realises the order
`user key ascending, then (sequence, row index) descending` whenever neither
user key is a proper initial segment of the other. -/
theorem c3_internal_key_codec
    (uk1 uk2 : List Nat) (s1 s2 : KeySequence)
    (hne : uk1 ≠ [])
    (hs1 : s1.sequence ≤ MAX_SEQUENCE_NUMBER) (hi1 : s1.rowIndex < U32)
    (hs2 : s2.sequence ≤ MAX_SEQUENCE_NUMBER) (hi2 : s2.rowIndex < U32)
    (hp : ¬ strictExtends uk1 uk2) (hq : ¬ strictExtends uk2 uk1) :
    user_key_from_internal_key (internalKey uk1 s1) = some (uk1, s1) ∧
    listCompare (internalKey uk1 s1) (internalKey uk2 s2) =
      specKeyCompare (uk1, s1) (uk2, s2) := by
  constructor
  · have hlen1 : 1 ≤ uk1.length := by
      cases uk1 with
      | nil => exact absurd rfl hne
      | cons a l => simp
    have hlen : (internalKey uk1 s1).length = uk1.length + KEY_SEQUENCE_BYTES_LEN := by
      simp [internalKey, sequenceCodecEncode_length]
    unfold user_key_from_internal_key internalKey
    have hlen2 : (uk1 ++ sequenceCodecEncode s1).length - KEY_SEQUENCE_BYTES_LEN
        = uk1.length := by
      simp [sequenceCodecEncode_length]
    have hcond : ¬ ((uk1 ++ sequenceCodecEncode s1).length ≤ KEY_SEQUENCE_BYTES_LEN) := by
      simp only [List.length_append, sequenceCodecEncode_length]
      omega
    rw [if_neg hcond, hlen2,
      List.drop_left, List.take_left, sequenceCodecDecode_encode s1 hs1 hi1]
  · unfold internalKey specKeyCompare
    rw [listCompare_append_of_not_ext _ _ _ _ hp hq]
    rw [sequenceCodecEncode_compare s1 s2 hs1 hs2 hi1 hi2]

/-- Claim C3, counterexample to the claim as frozen: for the prefix-related
user keys `[1]` and `[1, 0]` the bytewise comparison of the encoded internal
keys is `gt` while the order stated by the spec (user key ascending first)
is `lt`. -/
theorem c3_counterexample :
    listCompare (internalKey [1] ⟨0, 0⟩) (internalKey [1, 0] ⟨0, 0⟩) = .gt ∧
    specKeyCompare ([1], ⟨0, 0⟩) ([1, 0], ⟨0, 0⟩) = .lt := by
  exact ⟨rfl, rfl⟩

/-- Claim C3, witness: the amended theorem applied at concrete keys. -/
theorem c3_witness :
    user_key_from_internal_key (internalKey [1] ⟨5, 0⟩) = some ([1], ⟨5, 0⟩) ∧
    listCompare (internalKey [1] ⟨5, 0⟩) (internalKey [2] ⟨3, 1⟩) =
      specKeyCompare ([1], ⟨5, 0⟩) ([2], ⟨3, 1⟩) :=
  c3_internal_key_codec [1] [2] ⟨5, 0⟩ ⟨3, 1⟩ (by simp)
    (by norm_num [MAX_SEQUENCE_NUMBER, U64]) (by norm_num [U32])
    (by norm_num [MAX_SEQUENCE_NUMBER, U64]) (by norm_num [U32])
    (by rintro ⟨t, ht, he⟩; simp at he)
    (by rintro ⟨t, ht, he⟩; simp at he)

/-! Embedding of the WAL key model, `wal/src/manager.rs` read boundaries and
the table-unit read path (claims C10, C7, and shared by C1, C2, C6). -/

/-- Modelled from the spec: key of a KV-stored log entry,
`region_id(u64) || table_id(u64) || seq(u64)` with an optional
`remaining-bytes(u32)` suffix for split payloads (`kv_encoder::CommonLogKey`;
its source file is outside the sampled tree). -/
structure CommonLogKey where
  regionId : Nat
  tableId : Nat
  sequenceNum : Nat
  remaining : Option Nat
deriving DecidableEq, Repr

/-- Constructor `CommonLogKey::new` (no remaining-bytes suffix). -/
def CommonLogKey.mk3 (r t s : Nat) : CommonLogKey := ⟨r, t, s, none⟩

/-- Constructor `CommonLogKey::part`. -/
def CommonLogKey.part (r t s : Nat) (rem : Option Nat) : CommonLogKey := ⟨r, t, s, rem⟩

/-- Modelled from the spec: `CommonLogKey::has_remaining` holds exactly when
the key carries a positive remaining-bytes suffix; the unit tests in
`table_unit.rs` pin both `Some(0)` and `None` as "no remaining bytes". -/
def CommonLogKey.hasRemaining (k : CommonLogKey) : Bool :=
  match k.remaining with
  | none => false
  | some r => decide (0 < r)

/-- Modelled from the spec: byte length of an encoded log key — three u64
fields plus, for split parts, one u32 suffix. -/
def CommonLogKey.numBytes (k : CommonLogKey) : Nat :=
  match k.remaining with
  | none => 24
  | some _ => 28

/-- Read boundary of a WAL read request (`wal/src/manager.rs`). -/
inductive ReadBoundary where
  | max
  | min
  | included (n : Nat)
  | excluded (n : Nat)
deriving DecidableEq, Repr

/-- Source translation of `ReadBoundary::as_start_sequence_number`; the
increment is taken modulo `2 ^ 64` so that any wrap-around would be visible. -/
def ReadBoundary.as_start_sequence_number : ReadBoundary → Option Nat
  | .max => some MAX_SEQUENCE_NUMBER
  | .min => some MIN_SEQUENCE_NUMBER
  | .included n => some n
  | .excluded n => if n = MAX_SEQUENCE_NUMBER then none else some ((n + 1) % U64)

/-- Source translation of `ReadBoundary::as_end_sequence_number`. -/
def ReadBoundary.as_end_sequence_number : ReadBoundary → Option Nat
  | .max => some MAX_SEQUENCE_NUMBER
  | .min => some MIN_SEQUENCE_NUMBER
  | .included n => some n
  | .excluded n => if n = MIN_SEQUENCE_NUMBER then none else some (n - 1)

/-- In-memory state of a table unit (`TableUnitState`): start sequence and
last sequence, both 64-bit counters. -/
structure TableUnitState where
  regionId : Nat
  tableId : Nat
  startSequence : Nat
  lastSequence : Nat
deriving DecidableEq, Repr

/-- Read request handed to `TableUnit::read_log` (location plus bounds). -/
structure ReadRequest where
  regionId : Nat
  tableId : Nat
  startB : ReadBoundary
  endB : ReadBoundary
deriving DecidableEq, Repr

/-- Result of `TableUnit::read_log`: the bucket list together with the
inclusive key range, `TableLogIterator::new_empty` being the bucket-less
iterator over the zero key range. -/
structure TableLogIterator where
  buckets : List Nat
  minLogKey : CommonLogKey
  maxLogKey : CommonLogKey
deriving DecidableEq, Repr

/-- Source translation of `TableLogIterator::new_empty`. -/
def TableLogIterator.new_empty : TableLogIterator :=
  ⟨[], CommonLogKey.mk3 0 0 0, CommonLogKey.mk3 0 0 0⟩

/-- Source translation of `TableUnit::read_log`: converts both boundaries,
returning the empty iterator when either conversion yields no sequence, and
otherwise scans `[max(unit start, request start), min(unit last, request end)]`. -/
def TableUnit.read_log (st : TableUnitState) (buckets : List Nat)
    (req : ReadRequest) : TableLogIterator :=
  match req.startB.as_start_sequence_number with
  | none => TableLogIterator.new_empty
  | some requestStart =>
    match req.endB.as_end_sequence_number with
    | none => TableLogIterator.new_empty
    | some requestEnd =>
      let startSequence := max st.startSequence requestStart
      let endSequence := min st.lastSequence requestEnd
      ⟨buckets, CommonLogKey.mk3 req.regionId req.tableId startSequence,
        CommonLogKey.mk3 req.regionId req.tableId endSequence⟩

/-- Modelled from the spec: the KV scan underlying `TableLogIterator` visits
in key order exactly the stored entries whose sequence lies within the
inclusive key range; with no buckets the iterator has no data at all
(`no_more_data`). Durable logs are modelled as the integrate entries
`(sequence, payload)` of one region and table. -/
def TableLogIterator.entries (it : TableLogIterator)
    (logs : List (CommonLogKey × List Nat)) : List (CommonLogKey × List Nat) :=
  if it.buckets.length = 0 then []
  else logs.filter fun e =>
    decide (e.1.regionId = it.minLogKey.regionId) &&
    decide (e.1.tableId = it.minLogKey.tableId) &&
    decide (it.minLogKey.sequenceNum ≤ e.1.sequenceNum) &&
    decide (e.1.sequenceNum ≤ it.maxLogKey.sequenceNum)

/-- Claim C10: converting the start boundary `Excluded(u64::MAX)` or the end
boundary `Excluded(0)` yields `None` (and exactly these boundaries do);
for every smaller bound the converted start is `n + 1` with no 64-bit
wrap-around; and `read_log` returns the empty iterator, which yields no
entries, in exactly those two cases. -/
theorem c10_read_boundary_guard (st : TableUnitState) (buckets : List Nat)
    (req : ReadRequest) (hb : buckets ≠ []) :
    (req.startB.as_start_sequence_number = none ↔
      req.startB = .excluded MAX_SEQUENCE_NUMBER) ∧
    (req.endB.as_end_sequence_number = none ↔
      req.endB = .excluded MIN_SEQUENCE_NUMBER) ∧
    (∀ n, n < MAX_SEQUENCE_NUMBER →
      (ReadBoundary.excluded n).as_start_sequence_number = some (n + 1)) ∧
    (TableUnit.read_log st buckets req = TableLogIterator.new_empty ↔
      (req.startB = .excluded MAX_SEQUENCE_NUMBER ∨
        req.endB = .excluded MIN_SEQUENCE_NUMBER)) ∧
    (∀ logs, (TableLogIterator.new_empty).entries logs = []) := by
  refine ⟨?_, ?_, ?_, ?_, ?_⟩
  · cases hsb : req.startB <;>
      simp [ReadBoundary.as_start_sequence_number]
  · cases hsb : req.endB <;>
      simp [ReadBoundary.as_end_sequence_number]
  · intro n hn
    have hmod : (n + 1) % U64 = n + 1 := by
      apply Nat.mod_eq_of_lt
      simp only [MAX_SEQUENCE_NUMBER] at hn
      omega
    simp [ReadBoundary.as_start_sequence_number, hn.ne, hmod]
  · constructor
    · intro h
      by_contra hc
      push_neg at hc
      obtain ⟨h1, h2⟩ := hc
      have hs : req.startB.as_start_sequence_number ≠ none := by
        cases hsb : req.startB <;>
          simp [ReadBoundary.as_start_sequence_number]
        intro he
        exact h1 (by rw [hsb, he])
      have he : req.endB.as_end_sequence_number ≠ none := by
        cases hsb : req.endB <;>
          simp [ReadBoundary.as_end_sequence_number]
        intro he
        exact h2 (by rw [hsb, he])
      obtain ⟨s, hsv⟩ := Option.ne_none_iff_exists'.mp hs
      obtain ⟨e, hev⟩ := Option.ne_none_iff_exists'.mp he
      unfold TableUnit.read_log at h
      rw [hsv, hev] at h
      simp only [TableLogIterator.new_empty] at h
      have : buckets = [] := congrArg TableLogIterator.buckets h
      exact hb this
    · intro h
      rcases h with h | h
      · unfold TableUnit.read_log
        rw [h]
        simp [ReadBoundary.as_start_sequence_number]
      · unfold TableUnit.read_log
        rw [h]
        cases hsb : req.startB.as_start_sequence_number <;>
          simp [ReadBoundary.as_end_sequence_number]
  · intro logs
    simp [TableLogIterator.entries, TableLogIterator.new_empty]

/-- Claim C10, witness: the guard theorem applied at a concrete state,
bucket list and request. -/
theorem c10_witness :
    ((ReadBoundary.excluded MAX_SEQUENCE_NUMBER).as_start_sequence_number = none ↔
      ReadBoundary.excluded MAX_SEQUENCE_NUMBER = .excluded MAX_SEQUENCE_NUMBER) ∧
    ((ReadBoundary.excluded 0).as_end_sequence_number = none ↔
      ReadBoundary.excluded 0 = .excluded MIN_SEQUENCE_NUMBER) ∧
    (∀ n, n < MAX_SEQUENCE_NUMBER →
      (ReadBoundary.excluded n).as_start_sequence_number = some (n + 1)) ∧
    (TableUnit.read_log ⟨1, 2, 0, 9⟩ [0]
        ⟨1, 2, .excluded MAX_SEQUENCE_NUMBER, .excluded 0⟩ = TableLogIterator.new_empty ↔
      (ReadBoundary.excluded MAX_SEQUENCE_NUMBER = .excluded MAX_SEQUENCE_NUMBER ∨
        ReadBoundary.excluded 0 = .excluded MIN_SEQUENCE_NUMBER)) ∧
    (∀ logs, (TableLogIterator.new_empty).entries logs = []) :=
  c10_read_boundary_guard ⟨1, 2, 0, 9⟩ [0]
    ⟨1, 2, .excluded MAX_SEQUENCE_NUMBER, .excluded 0⟩ (by simp)

/-! Embedding of the write path of `table_unit.rs`: sequence allocation,
`WriteBatchesBuilder`, `LogBatchSplitEncoder`, durable KV state, deletion and
last-sequence recovery (claims C1, C2, C6, C7). -/

/-- Errors of the table-unit write path (`table_unit.rs::Error`); `panicked`
models a failing `unwrap`. -/
inductive WalError where
  | splitEmptyLogs
  | tooSmallSizeLimitPerBatch (limit : Nat)
  | sequenceOverflow
  | writeLog
  | panicked
deriving DecidableEq, Repr

/-- One key/value pair of a write batch; the encoded byte length of the key is
given by `CommonLogKey.numBytes`. -/
abbrev KvPair := CommonLogKey × List Nat

/-- One write batch, key/value pairs in insertion order. -/
abbrev WriteBatchM := List KvPair

/-- Source translation of `WriteBatchesBuilder`. -/
structure WriteBatchesBuilder where
  writeBatches : List WriteBatchM
  indexOfCurrBatch : Nat
  sizeOfCurrBatch : Nat
  nextSeqNum : Nat
  numInsertedKvs : Nat
  sizeLimitPerBatch : Nat
  numTotalKvs : Nat
deriving DecidableEq, Repr

/-- Source translation of `WriteBatchesBuilder::new`. -/
def WriteBatchesBuilder.new (numTotalKvs sizeLimitPerBatch nextSeqNum : Nat) :
    WriteBatchesBuilder :=
  ⟨[[]], 0, 0, nextSeqNum, 0, sizeLimitPerBatch, numTotalKvs⟩

/-- Source translation of `WriteBatchesBuilder::is_enough`. -/
def WriteBatchesBuilder.isEnough (b : WriteBatchesBuilder) (k : CommonLogKey)
    (v : List Nat) : Bool :=
  decide (b.sizeOfCurrBatch + k.numBytes + v.length < b.sizeLimitPerBatch)

/-- Source translation of `WriteBatchesBuilder::prepare_next_write_batch`. -/
def WriteBatchesBuilder.prepareNextWriteBatch (b : WriteBatchesBuilder) :
    WriteBatchesBuilder :=
  { b with
    indexOfCurrBatch := b.writeBatches.length
    sizeOfCurrBatch := 0
    writeBatches := b.writeBatches ++ [[]] }

/-- Source translation of `WriteBatchesBuilder::insert_entry`: rejects a pair
at least as large as the whole batch limit, moves to a fresh batch when the
current one is full, then appends the pair to the current batch. -/
def WriteBatchesBuilder.insertEntry (b : WriteBatchesBuilder) (k : CommonLogKey)
    (v : List Nat) : Except WalError WriteBatchesBuilder :=
  if ¬ (k.numBytes + v.length < b.sizeLimitPerBatch) then
    .error (.tooSmallSizeLimitPerBatch b.sizeLimitPerBatch)
  else
    let b2 := if ¬ b.isEnough k v then b.prepareNextWriteBatch else b
    let curr := b2.writeBatches.getD b2.indexOfCurrBatch []
    .ok { b2 with
      writeBatches := b2.writeBatches.set b2.indexOfCurrBatch (curr ++ [(k, v)])
      sizeOfCurrBatch := b2.sizeOfCurrBatch + k.numBytes + v.length
      numInsertedKvs := b2.numInsertedKvs + 1 }

/-- Source translation of `WriteBatchesBuilder::insert_integrate_entry`:
insert the pair and advance the sequence counter (wrapping 64-bit). -/
def WriteBatchesBuilder.insertIntegrateEntry (b : WriteBatchesBuilder)
    (k : CommonLogKey) (v : List Nat) : Except WalError WriteBatchesBuilder :=
  match b.insertEntry k v with
  | .ok b2 => .ok { b2 with nextSeqNum := (b2.nextSeqNum + 1) % U64 }
  | .error e => .error e

/-- Source translation of `WriteBatchesBuilder::last_seq_num` (wrapping
64-bit decrement). -/
def WriteBatchesBuilder.lastSeqNum (b : WriteBatchesBuilder) : Option Nat :=
  if 0 < b.numInsertedKvs then some ((b.nextSeqNum + U64 - 1) % U64) else none

/-- Source translation of `LogBatchSplitEncoder`. -/
structure LogBatchSplitEncoder where
  logValueSizeLimit : Nat
  writeBatchSizeLimit : Nat
  regionId : Nat
  tableId : Nat
deriving DecidableEq, Repr

/-- Source translation of `compute_sub_entry_offsets`: one `(offset, len)`
pair per chunk of at most `logValueSizeLimit` bytes. -/
def LogBatchSplitEncoder.computeSubEntryOffsets (e : LogBatchSplitEncoder)
    (totalSize : Nat) : List (Nat × Nat) :=
  let l := e.logValueSizeLimit
  let numSubEntries := (totalSize + l - 1) / l
  (List.range numSubEntries).map fun idx =>
    (idx * l, if totalSize < idx * l + l then totalSize - idx * l else l)

/-- Location of one log entry in the batch (`LogEntryLocation`). -/
inductive LogEntryLocation where
  | integrate (index : Nat)
  | splitted (index : Nat) (subEntryOffsets : List (Nat × Nat))
deriving DecidableEq, Repr

/-- Source translation of `log_entry_locations` (the `enumerate().map(..)`
written as a recursion carrying the running index). -/
def LogBatchSplitEncoder.logEntryLocationsGo (e : LogBatchSplitEncoder) :
    Nat → List (List Nat) → List LogEntryLocation
  | _, [] => []
  | i, entry :: rest =>
    (if e.logValueSizeLimit < entry.length then
      .splitted i (e.computeSubEntryOffsets entry.length)
    else
      .integrate i) :: e.logEntryLocationsGo (i + 1) rest

/-- Source translation of `log_entry_locations`. -/
def LogBatchSplitEncoder.logEntryLocations (e : LogBatchSplitEncoder)
    (entries : List (List Nat)) : List LogEntryLocation :=
  e.logEntryLocationsGo 0 entries

/-- Inserting the parts of one splitted entry (`SplittedEntriesInserter`):
every part shares the sequence number captured before the loop and carries
the `remaining-bytes` count, truncated to u32 as in the source cast. -/
def LogBatchSplitEncoder.insertSplittedParts (e : LogBatchSplitEncoder)
    (payload : List Nat) (seq : Nat) :
    List (Nat × Nat) → WriteBatchesBuilder → Except WalError WriteBatchesBuilder
  | [], b => .ok b
  | (off, len) :: rest, b =>
    let numRemainingBytes := payload.length - off - len
    let key := CommonLogKey.part e.regionId e.tableId seq (some (numRemainingBytes % U32))
    let val := (payload.drop off).take len
    match b.insertEntry key val with
    | .ok b2 => e.insertSplittedParts payload seq rest b2
    | .error err => .error err

/-- Main loop of `LogBatchSplitEncoder::encode` over the entry locations. -/
def LogBatchSplitEncoder.encodeGo (e : LogBatchSplitEncoder)
    (entries : List (List Nat)) :
    List LogEntryLocation → WriteBatchesBuilder → Except WalError WriteBatchesBuilder
  | [], b => .ok b
  | .integrate index :: rest, b =>
    let key := CommonLogKey.mk3 e.regionId e.tableId b.nextSeqNum
    match b.insertIntegrateEntry key (entries.getD index []) with
    | .ok b2 => e.encodeGo entries rest b2
    | .error err => .error err
  | .splitted index offs :: rest, b =>
    match e.insertSplittedParts (entries.getD index []) b.nextSeqNum offs b with
    | .ok b2 => e.encodeGo entries rest { b2 with nextSeqNum := (b2.nextSeqNum + 1) % U64 }
    | .error err => .error err

/-- Source translation of `LogBatchSplitEncoder::encode`: rejects empty
batches, then encodes every location and returns the write batches together
with the last assigned sequence number (whose absence is an `unwrap` panic). -/
def LogBatchSplitEncoder.encode (e : LogBatchSplitEncoder)
    (entries : List (List Nat)) (startSeq : Nat) :
    Except WalError (List WriteBatchM × Nat) :=
  if entries.isEmpty then .error .splitEmptyLogs
  else
    let numKvs := (entries.map fun v =>
      (v.length + e.logValueSizeLimit - 1) / e.logValueSizeLimit).sum
    let builder := WriteBatchesBuilder.new numKvs e.writeBatchSizeLimit startSeq
    match e.encodeGo entries (e.logEntryLocations entries) builder with
    | .ok b =>
      match b.lastSeqNum with
      | some last => .ok (b.writeBatches, last)
      | none => .error .panicked
    | .error err => .error err

/-- Source translation of `TableUnitWriter::alloc_sequence_num`: guards
`last < MAX_SEQUENCE_NUMBER`, fetch-adds `number` into the wrapping 64-bit
counter and returns the previous value plus one. -/
def allocSequenceNum (st : TableUnitState) (number : Nat) :
    Except WalError (TableUnitState × Nat) :=
  if st.lastSequence < MAX_SEQUENCE_NUMBER then
    .ok ({ st with lastSequence := (st.lastSequence + number) % U64 },
      st.lastSequence + 1)
  else
    .error .sequenceOverflow

/-- Durable KV state backing one table unit: the WAL shard table contents and
the persisted table-unit meta entry (its start sequence). -/
structure TableKvStore where
  logs : List KvPair
  metaStartSequence : Option Nat
deriving DecidableEq, Repr

/-- Modelled from the spec: the KV backend applies each write batch with one
`table_kv.write` call; `failAt = some i` makes the i-th call of this
operation fail (transient I/O), so only the preceding batches are applied.
Returns the resulting durable logs and whether all calls succeeded. -/
def applyWriteBatches (failAt : Option Nat) :
    Nat → List KvPair → List WriteBatchM → List KvPair × Bool
  | _, logs, [] => (logs, true)
  | i, logs, wb :: rest =>
    if failAt = some i then (logs, false)
    else applyWriteBatches failAt (i + 1) (logs ++ wb) rest

/-- Source translation of `TableUnitWriter::write_log`: allocates the
sequence range for the batch (before any durable write), split-encodes the
entries with the hard-coded limits (1000 bytes per value, 1000000 bytes per
write batch) and applies the write batches to the KV backend in order.
Returns the updated in-memory state, the durable state and the result. -/
def TableUnitWriter.write_log (failAt : Option Nat) (st : TableUnitState)
    (kv : TableKvStore) (entries : List (List Nat)) :
    TableUnitState × TableKvStore × Except WalError Nat :=
  let splitter : LogBatchSplitEncoder := ⟨1000, 1000 * 1000, st.regionId, st.tableId⟩
  match allocSequenceNum st entries.length with
  | .error e => (st, kv, .error e)
  | .ok (st2, nextSeq) =>
    match splitter.encode entries nextSeq with
    | .error e => (st2, kv, .error e)
    | .ok (writeBatches, maxSeqNum) =>
      match applyWriteBatches failAt 0 kv.logs writeBatches with
      | (logs2, true) => (st2, { kv with logs := logs2 }, .ok maxSeqNum)
      | (logs2, false) => (st2, { kv with logs := logs2 }, .error .writeLog)

/-- Source translation of `TableUnitWriter::delete_entries_up_to` (success
path): clamp the requested sequence to the in-memory last sequence, raise the
start sequence past it, persist the meta entry, then update the memory. -/
def TableUnitWriter.delete_entries_up_to (st : TableUnitState)
    (kv : TableKvStore) (sequenceNum : Nat) : TableUnitState × TableKvStore :=
  let seq := if st.lastSequence < sequenceNum then st.lastSequence else sequenceNum
  let newStart := if st.startSequence ≤ seq then seq + 1 else st.startSequence
  ({ st with startSequence := newStart },
    { kv with metaStartSequence := some newStart })

/-- Largest element of a list of sequence numbers, `none` when empty: the
result of the reverse KV scan in `load_last_sequence_from_table`. -/
def maxSeqOf : List Nat → Option Nat
  | [] => none
  | a :: rest =>
    match maxSeqOf rest with
    | none => some a
    | some b => some (max a b)

/-- Source translation of `load_last_sequence_from_table` over the modelled
durable logs: the largest stored sequence of the given region and table. -/
def loadLastSequenceFromTable (logs : List KvPair) (regionId tableId : Nat) :
    Option Nat :=
  maxSeqOf ((logs.filter fun p =>
    decide (p.1.regionId = regionId) && decide (p.1.tableId = tableId)).map
      fun p => p.1.sequenceNum)

/-- Source translation of `TableUnit::load_last_sequence`: take the largest
durable sequence unless it is older than `start_sequence - 1` (the FIXME
case), falling back to `start_sequence - 1`. -/
def TableUnit.load_last_sequence (logs : List KvPair) (regionId tableId : Nat)
    (startSequence : Nat) : Nat :=
  match loadLastSequenceFromTable logs regionId tableId with
  | some sequence =>
    if sequence + 1 < startSequence then
      if 0 < startSequence then startSequence - 1 else startSequence
    else sequence
  | none => if 0 < startSequence then startSequence - 1 else startSequence

/-- Sequence number observable from durable state alone, as on reopen
(`TableUnit::open` reads the meta entry and calls `load_last_sequence`);
`none` when no table-unit meta entry exists. -/
def reopenLastSequence (kv : TableKvStore) (regionId tableId : Nat) :
    Option Nat :=
  match kv.metaStartSequence with
  | none => none
  | some start => some (TableUnit.load_last_sequence kv.logs regionId tableId start)

/-- Invariant maintained by `WriteBatchesBuilder`: the current batch is the
final one of `writeBatches`. -/
def builderInv (b : WriteBatchesBuilder) : Prop :=
  b.indexOfCurrBatch + 1 = b.writeBatches.length

theorem builderInv_new (numTotalKvs sizeLimit nextSeq : Nat) :
    builderInv (WriteBatchesBuilder.new numTotalKvs sizeLimit nextSeq) := by
  simp [builderInv, WriteBatchesBuilder.new]

theorem flatten_set_append {α : Type} (l : List (List α)) (i : Nat)
    (h : i + 1 = l.length) (x : α) :
    (l.set i ((l.getD i []) ++ [x])).flatten = l.flatten ++ [x] := by
  induction l generalizing i with
  | nil => simp at h
  | cons a rest ih =>
    simp only [List.length_cons] at h
    cases i with
    | zero =>
      have hr : rest = [] := List.length_eq_zero.mp (by omega)
      subst hr
      simp [List.getD]
    | succ j =>
      have h2 : j + 1 = rest.length := by omega
      simp only [List.set_cons_succ, List.getD_cons_succ, List.flatten_cons,
        ih j h2, List.append_assoc]

theorem insertEntry_ok (b : WriteBatchesBuilder) (k : CommonLogKey) (v : List Nat)
    (hinv : builderInv b) (hsz : k.numBytes + v.length < b.sizeLimitPerBatch) :
    ∃ b2, b.insertEntry k v = .ok b2 ∧ builderInv b2 ∧
      b2.nextSeqNum = b.nextSeqNum ∧
      b2.sizeLimitPerBatch = b.sizeLimitPerBatch ∧
      b2.numInsertedKvs = b.numInsertedKvs + 1 ∧
      b2.writeBatches.flatten = b.writeBatches.flatten ++ [(k, v)] := by
  simp only [WriteBatchesBuilder.insertEntry]
  rw [if_neg (by simpa using hsz)]
  by_cases he : b.isEnough k v = true
  · have hred : (if ¬ b.isEnough k v = true then b.prepareNextWriteBatch else b) = b := by
      simp [he]
    rw [hred]
    refine ⟨_, rfl, ?_, rfl, rfl, rfl, ?_⟩
    · simpa [builderInv] using hinv
    · exact flatten_set_append _ _ hinv _
  · have hee : b.isEnough k v = false := by simpa using he
    have hred : (if ¬ b.isEnough k v = true then b.prepareNextWriteBatch else b)
        = b.prepareNextWriteBatch := by simp [hee]
    rw [hred]
    have hinv2 : builderInv b.prepareNextWriteBatch := by
      simp [builderInv, WriteBatchesBuilder.prepareNextWriteBatch]
    refine ⟨_, rfl, ?_, rfl, rfl, rfl, ?_⟩
    · simpa [builderInv] using hinv2
    · rw [flatten_set_append _ _ hinv2 _]
      simp [WriteBatchesBuilder.prepareNextWriteBatch]

theorem insertIntegrateEntry_ok (b : WriteBatchesBuilder) (k : CommonLogKey)
    (v : List Nat) (hinv : builderInv b)
    (hsz : k.numBytes + v.length < b.sizeLimitPerBatch) :
    ∃ b2, b.insertIntegrateEntry k v = .ok b2 ∧ builderInv b2 ∧
      b2.nextSeqNum = (b.nextSeqNum + 1) % U64 ∧
      b2.sizeLimitPerBatch = b.sizeLimitPerBatch ∧
      b2.numInsertedKvs = b.numInsertedKvs + 1 ∧
      b2.writeBatches.flatten = b.writeBatches.flatten ++ [(k, v)] := by
  obtain ⟨b2, hok, hi, hn, hs, hc, hj⟩ := insertEntry_ok b k v hinv hsz
  simp only [WriteBatchesBuilder.insertIntegrateEntry, hok]
  exact ⟨_, rfl, by simpa [builderInv] using hi, by simp [hn], by simp [hs],
    by simp [hc], by simp [hj]⟩

theorem computeSubEntryOffsets_snd_le (e : LogBatchSplitEncoder) (total : Nat) :
    ∀ p ∈ e.computeSubEntryOffsets total, p.2 ≤ e.logValueSizeLimit := by
  intro p hp
  simp only [LogBatchSplitEncoder.computeSubEntryOffsets, List.mem_map,
    List.mem_range] at hp
  obtain ⟨idx, _, rfl⟩ := hp
  dsimp only
  split <;> omega

theorem computeSubEntryOffsets_ne_nil (e : LogBatchSplitEncoder) (total : Nat)
    (hl : 0 < e.logValueSizeLimit) (ht : 0 < total) :
    e.computeSubEntryOffsets total ≠ [] := by
  simp only [LogBatchSplitEncoder.computeSubEntryOffsets, ne_eq,
    List.map_eq_nil_iff, List.range_eq_nil]
  have h1 : 1 ≤ (total + e.logValueSizeLimit - 1) / e.logValueSizeLimit :=
    (Nat.one_le_div_iff hl).mpr (by omega)
  omega

/-- Key/value pairs produced for one log entry: either one integrate pair or
one pair per chunk, each split pair carrying the (u32-truncated) number of
remaining payload bytes. -/
def partsOf (e : LogBatchSplitEncoder) (payload : List Nat) (seq : Nat) :
    List KvPair :=
  if e.logValueSizeLimit < payload.length then
    (e.computeSubEntryOffsets payload.length).map fun p =>
      (CommonLogKey.part e.regionId e.tableId seq
        (some ((payload.length - p.1 - p.2) % U32)),
       (payload.drop p.1).take p.2)
  else
    [(CommonLogKey.mk3 e.regionId e.tableId seq, payload)]

/-- Key/value pairs produced for a batch of log entries starting at the given
sequence number (wrapping 64-bit increments between entries). -/
def kvsOfEntries (e : LogBatchSplitEncoder) : Nat → List (List Nat) → List KvPair
  | _, [] => []
  | seq, payload :: rest => partsOf e payload seq ++ kvsOfEntries e ((seq + 1) % U64) rest

theorem insertSplittedParts_ok (e : LogBatchSplitEncoder) (payload : List Nat)
    (seq : Nat) (offs : List (Nat × Nat)) (b : WriteBatchesBuilder)
    (hinv : builderInv b)
    (hsz : ∀ p ∈ offs, 28 + p.2 < b.sizeLimitPerBatch) :
    ∃ b2, e.insertSplittedParts payload seq offs b = .ok b2 ∧ builderInv b2 ∧
      b2.nextSeqNum = b.nextSeqNum ∧
      b2.sizeLimitPerBatch = b.sizeLimitPerBatch ∧
      b2.numInsertedKvs = b.numInsertedKvs + offs.length ∧
      b2.writeBatches.flatten = b.writeBatches.flatten ++
        offs.map (fun p =>
          (CommonLogKey.part e.regionId e.tableId seq
            (some ((payload.length - p.1 - p.2) % U32)),
           (payload.drop p.1).take p.2)) := by
  induction offs generalizing b with
  | nil => exact ⟨b, rfl, hinv, rfl, rfl, by simp, by simp⟩
  | cons p rest ih =>
    obtain ⟨off, len⟩ := p
    have hsz1 : (CommonLogKey.part e.regionId e.tableId seq
        (some ((payload.length - off - len) % U32))).numBytes +
        ((payload.drop off).take len).length < b.sizeLimitPerBatch := by
      have h1 := hsz (off, len) (by simp)
      have h2 : ((payload.drop off).take len).length ≤ len := by
        simp [List.length_take]
      simp only [CommonLogKey.numBytes, CommonLogKey.part] at h1 ⊢
      omega
    obtain ⟨b1, hok, hi1, hn1, hs1, hc1, hj1⟩ := insertEntry_ok b _ _ hinv hsz1
    obtain ⟨b2, hok2, hi2, hn2, hs2, hc2, hj2⟩ := ih b1 hi1 (fun q hq => by
      rw [hs1]
      exact hsz q (by simp [hq]))
    refine ⟨b2, ?_, hi2, ?_, ?_, ?_, ?_⟩
    · simp only [LogBatchSplitEncoder.insertSplittedParts, hok, hok2]
    · rw [hn2, hn1]
    · rw [hs2, hs1]
    · rw [hc2, hc1]
      simp only [List.length_cons]
      omega
    · rw [hj2, hj1]
      simp [List.append_assoc]

theorem encodeGo_ok (e : LogBatchSplitEncoder) (entries : List (List Nat))
    (hl : 0 < e.logValueSizeLimit) (rest : List (List Nat)) :
    ∀ (i : Nat) (b : WriteBatchesBuilder), builderInv b →
    (∀ j, entries.getD (i + j) [] = rest.getD j []) →
    28 + e.logValueSizeLimit < b.sizeLimitPerBatch →
    b.nextSeqNum < U64 →
    ∃ b2, e.encodeGo entries (e.logEntryLocationsGo i rest) b = .ok b2 ∧
      builderInv b2 ∧
      b2.sizeLimitPerBatch = b.sizeLimitPerBatch ∧
      b2.nextSeqNum = (b.nextSeqNum + rest.length) % U64 ∧
      b2.nextSeqNum < U64 ∧
      b.numInsertedKvs + rest.length ≤ b2.numInsertedKvs ∧
      b2.writeBatches.flatten = b.writeBatches.flatten ++
        kvsOfEntries e b.nextSeqNum rest := by
  induction rest with
  | nil =>
    intro i b hinv hget hlim hn
    exact ⟨b, rfl, hinv, rfl, (Nat.mod_eq_of_lt (by omega)).symm, hn, by simp,
      by simp [kvsOfEntries]⟩
  | cons payload rest ih =>
    intro i b hinv hget hlim hn
    have hget0 : entries.getD i [] = payload := by
      have := hget 0
      simpa using this
    have hgetS : ∀ j, entries.getD (i + 1 + j) [] = rest.getD j [] := by
      intro j
      have := hget (j + 1)
      simp only [List.getD_cons_succ] at this
      rw [← this]
      congr 1
      omega
    have hU : 0 < U64 := by norm_num [U64]
    by_cases hsplit : e.logValueSizeLimit < payload.length
    · -- splitted entry
      have hoffs_le := computeSubEntryOffsets_snd_le e payload.length
      have hsz : ∀ p ∈ e.computeSubEntryOffsets payload.length,
          28 + p.2 < b.sizeLimitPerBatch := by
        intro p hp
        have := hoffs_le p hp
        omega
      obtain ⟨b1, hok, hi1, hn1, hs1, hc1, hj1⟩ :=
        insertSplittedParts_ok e payload b.nextSeqNum
          (e.computeSubEntryOffsets payload.length) b hinv hsz
      have hb1next : ({ b1 with nextSeqNum := (b1.nextSeqNum + 1) % U64 } :
          WriteBatchesBuilder).nextSeqNum < U64 := Nat.mod_lt _ hU
      obtain ⟨b2, hok2, hi2, hs2, hn2, hn2lt, hc2, hj2⟩ :=
        ih (i + 1) { b1 with nextSeqNum := (b1.nextSeqNum + 1) % U64 }
          (by simpa [builderInv] using hi1) hgetS (by simpa [hs1] using hlim) hb1next
      dsimp only at hs2 hn2 hc2 hj2
      have hne_offs : e.computeSubEntryOffsets payload.length ≠ [] :=
        computeSubEntryOffsets_ne_nil e payload.length hl (by omega)
      refine ⟨b2, ?_, hi2, by rw [hs2, hs1], ?_, hn2lt, ?_, ?_⟩
      · simp only [LogBatchSplitEncoder.logEntryLocationsGo, if_pos hsplit,
          LogBatchSplitEncoder.encodeGo, hget0, hok, hok2]
      · rw [hn2]
        simp only [hn1, List.length_cons]
        rw [Nat.mod_add_mod]
        congr 1
        omega
      · have hlen : 1 ≤ (e.computeSubEntryOffsets payload.length).length := by
          cases hoe : e.computeSubEntryOffsets payload.length with
          | nil => exact absurd hoe hne_offs
          | cons q qs => simp
        simp only [List.length_cons]
        omega
      · rw [hj2]
        simp only [hj1, hn1]
        rw [kvsOfEntries, partsOf, if_pos hsplit]
        simp [List.append_assoc]
    · -- integrate entry
      have hsz1 : (CommonLogKey.mk3 e.regionId e.tableId b.nextSeqNum).numBytes +
          (entries.getD i []).length < b.sizeLimitPerBatch := by
        rw [hget0]
        simp only [CommonLogKey.numBytes, CommonLogKey.mk3]
        omega
      obtain ⟨b1, hok, hi1, hn1, hs1, hc1, hj1⟩ :=
        insertIntegrateEntry_ok b _ _ hinv hsz1
      have hb1next : b1.nextSeqNum < U64 := by
        rw [hn1]
        exact Nat.mod_lt _ hU
      obtain ⟨b2, hok2, hi2, hs2, hn2, hn2lt, hc2, hj2⟩ :=
        ih (i + 1) b1 hi1 hgetS (by simpa [hs1] using hlim) hb1next
      refine ⟨b2, ?_, hi2, by rw [hs2, hs1], ?_, hn2lt, ?_, ?_⟩
      · simp only [LogBatchSplitEncoder.logEntryLocationsGo, if_neg hsplit,
          LogBatchSplitEncoder.encodeGo, hok, hok2]
      · rw [hn2, hn1]
        simp only [List.length_cons]
        rw [Nat.mod_add_mod]
        congr 1
        omega
      · simp only [List.length_cons]
        omega
      · rw [hj2, hj1, hn1]
        rw [kvsOfEntries, partsOf, if_neg hsplit, hget0]
        simp [List.append_assoc]

theorem encode_ok (e : LogBatchSplitEncoder) (entries : List (List Nat))
    (startSeq : Nat) (hne : entries ≠ []) (hs : startSeq < U64)
    (hl : 0 < e.logValueSizeLimit)
    (hlim : 28 + e.logValueSizeLimit < e.writeBatchSizeLimit) :
    ∃ batches, e.encode entries startSeq =
        .ok (batches, (startSeq + entries.length + U64 - 1) % U64) ∧
      batches.flatten = kvsOfEntries e startSeq entries := by
  obtain ⟨b2, hok, _, hs2, hn2, _, hc2, hj2⟩ :=
    encodeGo_ok e entries hl entries 0
      (WriteBatchesBuilder.new
        ((entries.map fun v =>
          (v.length + e.logValueSizeLimit - 1) / e.logValueSizeLimit).sum)
        e.writeBatchSizeLimit startSeq)
      (builderInv_new _ _ _) (fun j => by simp) (by simp [WriteBatchesBuilder.new]; omega)
      (by simpa [WriteBatchesBuilder.new] using hs)
  have hpos : 0 < entries.length := List.length_pos.mpr hne
  have hcnt : 0 < b2.numInsertedKvs := by
    simp only [WriteBatchesBuilder.new] at hc2
    omega
  refine ⟨b2.writeBatches, ?_, ?_⟩
  · simp only [LogBatchSplitEncoder.encode, LogBatchSplitEncoder.logEntryLocations]
    rw [if_neg (by simpa [List.isEmpty_iff] using hne)]
    rw [hok]
    have hU : 0 < U64 := by norm_num [U64]
    simp only [WriteBatchesBuilder.lastSeqNum, if_pos hcnt, hn2,
      WriteBatchesBuilder.new]
    have hv : ((startSeq + entries.length) % U64 + U64 - 1) % U64
        = (startSeq + entries.length + U64 - 1) % U64 := by
      have heq : (startSeq + entries.length) % U64 + U64 - 1
          = (startSeq + entries.length) % U64 + (U64 - 1) := by omega
      rw [heq, Nat.mod_add_mod]
      have heq2 : startSeq + entries.length + (U64 - 1)
          = startSeq + entries.length + U64 - 1 := by omega
      rw [heq2]
    rw [hv]
  · rw [hj2]
    simp [WriteBatchesBuilder.new]

theorem applyWriteBatches_none (i : Nat) (logs : List KvPair)
    (wbs : List WriteBatchM) :
    applyWriteBatches none i logs wbs = (logs ++ wbs.flatten, true) := by
  induction wbs generalizing i logs with
  | nil => simp [applyWriteBatches]
  | cons wb rest ih => simp [applyWriteBatches, ih, List.append_assoc]

/-- Splitter configuration hard-coded in `TableUnitWriter::write_log`. -/
def writeLogSplitter (st : TableUnitState) : LogBatchSplitEncoder :=
  ⟨1000, 1000 * 1000, st.regionId, st.tableId⟩

theorem write_log_ok (st : TableUnitState) (kv : TableKvStore)
    (entries : List (List Nat)) (hne : entries ≠ [])
    (hbound : st.lastSequence + entries.length ≤ MAX_SEQUENCE_NUMBER) :
    TableUnitWriter.write_log none st kv entries =
      ({ st with lastSequence := st.lastSequence + entries.length },
       { kv with logs := kv.logs ++
          kvsOfEntries (writeLogSplitter st) (st.lastSequence + 1) entries },
       .ok (st.lastSequence + entries.length)) := by
  have hpos : 0 < entries.length := List.length_pos.mpr hne
  have hMU : MAX_SEQUENCE_NUMBER < U64 := by norm_num [MAX_SEQUENCE_NUMBER, U64]
  have hlast : st.lastSequence < MAX_SEQUENCE_NUMBER := by omega
  obtain ⟨batches, henc, hflat⟩ := encode_ok (writeLogSplitter st) entries
    (st.lastSequence + 1) hne (by omega) (by norm_num [writeLogSplitter])
    (by norm_num [writeLogSplitter])
  have hmax : (st.lastSequence + 1 + entries.length + U64 - 1) % U64
      = st.lastSequence + entries.length := by
    have h1 : st.lastSequence + 1 + entries.length + U64 - 1
        = (st.lastSequence + entries.length) + U64 := by omega
    rw [h1, Nat.add_mod_right]
    exact Nat.mod_eq_of_lt (by omega)
  simp only [TableUnitWriter.write_log, allocSequenceNum, if_pos hlast]
  have hmod : (st.lastSequence + entries.length) % U64
      = st.lastSequence + entries.length := Nat.mod_eq_of_lt (by omega)
  rw [hmod]
  have henc2 := henc
  rw [hmax] at henc2
  rw [show (⟨1000, 1000 * 1000, st.regionId, st.tableId⟩ : LogBatchSplitEncoder)
      = writeLogSplitter st from rfl, henc2]
  simp only [applyWriteBatches_none, hflat]

/-- Claim C1 (amended): for two successive successful writes of non-empty
batches on the same table unit, provided the allocation does not wrap the
64-bit sequence space, the first write returns `start1 + n1 - 1`, the second
returns `start2 + n2 - 1` (with `start_i` the first sequence allocated to the
batch), and the sequence returned by the first write is strictly smaller than
the sequence returned by the second. -/
theorem c1_sequence_monotonicity (st : TableUnitState) (kv : TableKvStore)
    (entries1 entries2 : List (List Nat))
    (h1 : entries1 ≠ []) (h2 : entries2 ≠ [])
    (hbound : st.lastSequence + entries1.length + entries2.length
      ≤ MAX_SEQUENCE_NUMBER) :
    ∃ st1 kv1 st2 kv2 seq1 seq2,
      TableUnitWriter.write_log none st kv entries1 = (st1, kv1, .ok seq1) ∧
      TableUnitWriter.write_log none st1 kv1 entries2 = (st2, kv2, .ok seq2) ∧
      seq1 = (st.lastSequence + 1) + entries1.length - 1 ∧
      seq2 = (st1.lastSequence + 1) + entries2.length - 1 ∧
      seq1 < seq2 := by
  have hp1 : 0 < entries1.length := List.length_pos.mpr h1
  have hp2 : 0 < entries2.length := List.length_pos.mpr h2
  have hw1 := write_log_ok st kv entries1 h1 (by omega)
  have hw2 := write_log_ok { st with lastSequence := st.lastSequence + entries1.length }
    { kv with logs := kv.logs ++
        kvsOfEntries (writeLogSplitter st) (st.lastSequence + 1) entries1 }
    entries2 h2 (by simpa using by omega)
  refine ⟨_, _, _, _, _, _, hw1, hw2, by omega, by simp, by simp <;> omega⟩

/-- Claim C1, counterexample to the claim as frozen: near the top of the
64-bit sequence space the guard in `alloc_sequence_num` (which only checks
`last < MAX`) admits a wrapping allocation, so a successful write `W2` of two
entries directly after a successful write `W1` returns sequence `0`, which is
neither larger than `seq(W1) = 2^64 - 2` nor equal to `start + n - 1`. -/
theorem c1_counterexample :
    (TableUnitWriter.write_log none ⟨0, 0, 0, U64 - 3⟩ ⟨[], none⟩ [[0]]).2.2
        = .ok (U64 - 2) ∧
    (TableUnitWriter.write_log none
        (TableUnitWriter.write_log none ⟨0, 0, 0, U64 - 3⟩ ⟨[], none⟩ [[0]]).1
        (TableUnitWriter.write_log none ⟨0, 0, 0, U64 - 3⟩ ⟨[], none⟩ [[0]]).2.1
        [[0], [0]]).2.2 = .ok 0 ∧
    ¬ (U64 - 2 < 0) ∧ ((U64 - 1) + 2 - 1 ≠ 0) := by
  refine ⟨by rfl, by rfl, by omega, by norm_num [U64]⟩

/-- Claim C1, witness: the amended theorem applied at a concrete state and
two concrete batches. -/
theorem c1_witness :
    ∃ st1 kv1 st2 kv2 seq1 seq2,
      TableUnitWriter.write_log none ⟨7, 9, 1, 5⟩ ⟨[], some 1⟩ [[1]]
        = (st1, kv1, .ok seq1) ∧
      TableUnitWriter.write_log none st1 kv1 [[2], [3]] = (st2, kv2, .ok seq2) ∧
      seq1 = (5 + 1) + 1 - 1 ∧
      seq2 = (st1.lastSequence + 1) + 2 - 1 ∧
      seq1 < seq2 :=
  c1_sequence_monotonicity ⟨7, 9, 1, 5⟩ ⟨[], some 1⟩ [[1]] [[2], [3]]
    (by simp) (by simp) (by norm_num [MAX_SEQUENCE_NUMBER, U64])

/-! Embedding of `IntegrateLogCollector` and the reader reassembly loop
(claim C6). -/

/-- Source translation of `IntegrateLogCollector`. -/
structure IntegrateLogCollector where
  logKey : Option CommonLogKey
  logPayload : List Nat
deriving DecidableEq, Repr

/-- Default (empty) collector. -/
def IntegrateLogCollector.empty : IntegrateLogCollector := ⟨none, []⟩

/-- Source translation of `is_integrate`. -/
def IntegrateLogCollector.isIntegrate (c : IntegrateLogCollector) : Bool :=
  match c.logKey with
  | some k => !k.hasRemaining
  | none => false

/-- Source translation of `init_log`. -/
def IntegrateLogCollector.initLog (_c : IntegrateLogCollector)
    (k : CommonLogKey) (p : List Nat) : IntegrateLogCollector :=
  ⟨some k, p⟩

/-- Source translation of `is_part_log` (only called with a present key). -/
def IntegrateLogCollector.isPartLog (c : IntegrateLogCollector)
    (k : CommonLogKey) : Bool :=
  match c.logKey with
  | some curr =>
    decide (curr.regionId = k.regionId) && decide (curr.tableId = k.tableId) &&
      decide (curr.sequenceNum = k.sequenceNum)
  | none => false

/-- Source translation of `merge_log`. -/
def IntegrateLogCollector.mergeLog (c : IntegrateLogCollector)
    (k : CommonLogKey) (p : List Nat) : IntegrateLogCollector :=
  ⟨some k, c.logPayload ++ p⟩

/-- Source translation of `collect`. -/
def IntegrateLogCollector.collect (c : IntegrateLogCollector)
    (k : CommonLogKey) (p : List Nat) : IntegrateLogCollector :=
  match c.logKey with
  | none => c.initLog k p
  | some _ =>
    if c.isIntegrate then c
    else if c.isPartLog k then c.mergeLog k p
    else c.initLog k p

/-- Reader loop over a stream of decoded key/value pairs: a fresh collector
absorbs consecutive pairs until it holds an integrate log, which is emitted
(the loop of `TableLogIterator::next_log_entry`); a trailing non-integrate
residue is not emitted. -/
def collectorRun : List KvPair → IntegrateLogCollector → List KvPair
  | [], _ => []
  | (k, v) :: rest, c =>
    let c2 := c.collect k v
    if c2.isIntegrate then
      (match c2.logKey with
       | some fk => [(fk, c2.logPayload)]
       | none => []) ++ collectorRun rest IntegrateLogCollector.empty
    else
      collectorRun rest c2

/-- Split key/value pairs of one oversized payload (the map over
`compute_sub_entry_offsets` inside `LogBatchSplitEncoder::encode`). -/
def splitKvs (e : LogBatchSplitEncoder) (payload : List Nat) (seq : Nat) :
    List KvPair :=
  (e.computeSubEntryOffsets payload.length).map fun p =>
    (CommonLogKey.part e.regionId e.tableId seq
      (some ((payload.length - p.1 - p.2) % U32)),
     (payload.drop p.1).take p.2)

theorem partsOf_eq (e : LogBatchSplitEncoder) (payload : List Nat) (seq : Nat) :
    partsOf e payload seq =
      if e.logValueSizeLimit < payload.length then splitKvs e payload seq
      else [(CommonLogKey.mk3 e.regionId e.tableId seq, payload)] := rfl

theorem computeSubEntryOffsets_small (e : LogBatchSplitEncoder) (total : Nat)
    (hl : 0 < e.logValueSizeLimit) (hpos : 0 < total)
    (h : total ≤ e.logValueSizeLimit) :
    e.computeSubEntryOffsets total =
      [(0, if total < e.logValueSizeLimit then total else e.logValueSizeLimit)] := by
  have hm : (total + e.logValueSizeLimit - 1) / e.logValueSizeLimit = 1 :=
    Nat.div_eq_of_lt_le (by omega) (by omega)
  simp only [LogBatchSplitEncoder.computeSubEntryOffsets, hm, List.range_succ,
    List.range_zero, List.nil_append, List.map_cons, List.map_nil]
  simp only [Nat.zero_mul, Nat.zero_add, Nat.sub_zero]

theorem computeSubEntryOffsets_succ (e : LogBatchSplitEncoder) (total : Nat)
    (hl : 0 < e.logValueSizeLimit) (h : e.logValueSizeLimit < total) :
    e.computeSubEntryOffsets total =
      (0, e.logValueSizeLimit) ::
        (e.computeSubEntryOffsets (total - e.logValueSizeLimit)).map
          (fun p => (p.1 + e.logValueSizeLimit, p.2)) := by
  have hm : (total + e.logValueSizeLimit - 1) / e.logValueSizeLimit
      = (total - e.logValueSizeLimit + e.logValueSizeLimit - 1)
          / e.logValueSizeLimit + 1 := by
    have h1 : total + e.logValueSizeLimit - 1
        = (total - 1 - e.logValueSizeLimit) + e.logValueSizeLimit
            + e.logValueSizeLimit := by omega
    have h2 : total - e.logValueSizeLimit + e.logValueSizeLimit - 1
        = (total - 1 - e.logValueSizeLimit) + e.logValueSizeLimit := by omega
    rw [h1, h2, Nat.add_div_right _ hl]
  simp only [LogBatchSplitEncoder.computeSubEntryOffsets, hm,
    List.range_succ_eq_map, List.map_cons, List.map_map]
  congr 1
  · simp only [Nat.zero_mul, Nat.zero_add, Nat.sub_zero]
    rw [if_neg (by omega)]
  · apply List.map_congr_left
    intro j _
    simp only [Function.comp_apply, Nat.succ_mul, Prod.mk.injEq]
    refine ⟨trivial, ?_⟩
    rcases Nat.lt_or_ge (total - e.logValueSizeLimit)
        (j * e.logValueSizeLimit + e.logValueSizeLimit) with hlt | hge
    · rw [if_pos (by omega), if_pos (by omega)]
      omega
    · rw [if_neg (by omega), if_neg (by omega)]

theorem splitKvs_small (e : LogBatchSplitEncoder) (payload : List Nat) (seq : Nat)
    (hl : 0 < e.logValueSizeLimit) (hpos : 0 < payload.length)
    (h : payload.length ≤ e.logValueSizeLimit) :
    splitKvs e payload seq =
      [(CommonLogKey.part e.regionId e.tableId seq (some 0), payload)] := by
  unfold splitKvs
  rw [computeSubEntryOffsets_small e _ hl hpos h]
  by_cases hc : payload.length < e.logValueSizeLimit
  · simp [hc, List.take_length]
  · have hEq : payload.length = e.logValueSizeLimit := by omega
    simp [hc, ← hEq, List.take_length]

theorem splitKvs_succ (e : LogBatchSplitEncoder) (payload : List Nat) (seq : Nat)
    (hl : 0 < e.logValueSizeLimit) (h : e.logValueSizeLimit < payload.length) :
    splitKvs e payload seq =
      (CommonLogKey.part e.regionId e.tableId seq
          (some ((payload.length - e.logValueSizeLimit) % U32)),
        payload.take e.logValueSizeLimit) ::
      splitKvs e (payload.drop e.logValueSizeLimit) seq := by
  unfold splitKvs
  rw [computeSubEntryOffsets_succ e _ hl h]
  simp only [List.map_cons, List.map_map, List.length_drop]
  congr 1
  apply List.map_congr_left
  intro p _
  obtain ⟨a, b⟩ := p
  simp only [Function.comp_apply]
  have h1 : payload.length - (a + e.logValueSizeLimit) - b
      = payload.length - e.logValueSizeLimit - a - b := by omega
  have h2 : a + e.logValueSizeLimit = e.logValueSizeLimit + a := by omega
  have h3 : payload.length - (e.logValueSizeLimit + a) - b
      = payload.length - e.logValueSizeLimit - a - b := by omega
  simp [h1, h2, h3, List.drop_drop]

theorem collectorRun_cons (k : CommonLogKey) (v : List Nat) (rest : List KvPair)
    (c : IntegrateLogCollector) :
    collectorRun ((k, v) :: rest) c =
      if (c.collect k v).isIntegrate then
        (match (c.collect k v).logKey with
         | some fk => [(fk, (c.collect k v).logPayload)]
         | none => []) ++ collectorRun rest IntegrateLogCollector.empty
      else collectorRun rest (c.collect k v) := rfl

theorem collect_merge (kc k : CommonLogKey) (acc v : List Nat)
    (hrem : kc.hasRemaining = true)
    (hr : kc.regionId = k.regionId) (ht : kc.tableId = k.tableId)
    (hs : kc.sequenceNum = k.sequenceNum) :
    (⟨some kc, acc⟩ : IntegrateLogCollector).collect k v = ⟨some k, acc ++ v⟩ := by
  simp [IntegrateLogCollector.collect, IntegrateLogCollector.isIntegrate, hrem,
    IntegrateLogCollector.isPartLog, hr, ht, hs, IntegrateLogCollector.mergeLog]

theorem collectorRun_feed (e : LogBatchSplitEncoder)
    (hl : 0 < e.logValueSizeLimit) (s : Nat) :
    ∀ (n : Nat) (payload : List Nat), payload.length = n →
      0 < payload.length → payload.length < U32 →
      ∀ (rest : List KvPair) (kc : CommonLogKey) (acc : List Nat),
      kc.regionId = e.regionId → kc.tableId = e.tableId →
      kc.sequenceNum = s → kc.hasRemaining = true →
      collectorRun (splitKvs e payload s ++ rest) ⟨some kc, acc⟩
        = (CommonLogKey.part e.regionId e.tableId s (some 0), acc ++ payload)
            :: collectorRun rest IntegrateLogCollector.empty := by
  intro n
  induction n using Nat.strong_induction_on with
  | _ n ih =>
    intro payload hlen hpos hu rest kc acc hr ht hs hrem
    by_cases hsplit : e.logValueSizeLimit < payload.length
    · rw [splitKvs_succ e payload s hl hsplit, List.cons_append, collectorRun_cons]
      rw [collect_merge kc _ acc _ hrem (by simp [hr, CommonLogKey.part])
        (by simp [ht, CommonLogKey.part]) (by simp [hs, CommonLogKey.part])]
      have hmod : (payload.length - e.logValueSizeLimit) % U32
          = payload.length - e.logValueSizeLimit := Nat.mod_eq_of_lt (by omega)
      have hrem1 : (CommonLogKey.part e.regionId e.tableId s
          (some ((payload.length - e.logValueSizeLimit) % U32))).hasRemaining
            = true := by
        simp only [CommonLogKey.part, CommonLogKey.hasRemaining, hmod]
        simp
        omega
      rw [if_neg (by simp [IntegrateLogCollector.isIntegrate, hrem1])]
      have hlen2 : (payload.drop e.logValueSizeLimit).length
          = n - e.logValueSizeLimit := by simp [hlen]
      rw [ih (n - e.logValueSizeLimit) (by omega) _ hlen2
        (by rw [hlen2]; omega) (by rw [hlen2]; omega) rest _ _
        (by simp [CommonLogKey.part]) (by simp [CommonLogKey.part])
        (by simp [CommonLogKey.part]) hrem1]
      rw [List.append_assoc, List.take_append_drop]
    · rw [splitKvs_small e payload s hl hpos (by omega), List.cons_append,
        List.nil_append, collectorRun_cons]
      rw [collect_merge kc _ acc _ hrem (by simp [hr, CommonLogKey.part])
        (by simp [ht, CommonLogKey.part]) (by simp [hs, CommonLogKey.part])]
      rw [if_pos (by simp [IntegrateLogCollector.isIntegrate,
        CommonLogKey.part, CommonLogKey.hasRemaining])]
      simp

theorem collectorRun_partsOf (e : LogBatchSplitEncoder)
    (hl : 0 < e.logValueSizeLimit) (payload : List Nat) (s : Nat)
    (rest : List KvPair) (hu : payload.length < U32) :
    collectorRun (partsOf e payload s ++ rest) IntegrateLogCollector.empty
      = ((if e.logValueSizeLimit < payload.length then
            CommonLogKey.part e.regionId e.tableId s (some 0)
          else CommonLogKey.mk3 e.regionId e.tableId s), payload)
          :: collectorRun rest IntegrateLogCollector.empty := by
  rw [partsOf_eq]
  by_cases hsplit : e.logValueSizeLimit < payload.length
  · rw [if_pos hsplit, if_pos hsplit]
    rw [splitKvs_succ e payload s hl hsplit, List.cons_append, collectorRun_cons]
    have hmod : (payload.length - e.logValueSizeLimit) % U32
        = payload.length - e.logValueSizeLimit := Nat.mod_eq_of_lt (by omega)
    have hrem1 : (CommonLogKey.part e.regionId e.tableId s
        (some ((payload.length - e.logValueSizeLimit) % U32))).hasRemaining
          = true := by
      simp only [CommonLogKey.part, CommonLogKey.hasRemaining, hmod]
      simp
      omega
    have hinit : IntegrateLogCollector.empty.collect
        (CommonLogKey.part e.regionId e.tableId s
          (some ((payload.length - e.logValueSizeLimit) % U32)))
        (payload.take e.logValueSizeLimit)
        = ⟨some (CommonLogKey.part e.regionId e.tableId s
            (some ((payload.length - e.logValueSizeLimit) % U32))),
           payload.take e.logValueSizeLimit⟩ := rfl
    rw [hinit, if_neg (by simp [IntegrateLogCollector.isIntegrate, hrem1])]
    have hfeed := collectorRun_feed e hl s (payload.drop e.logValueSizeLimit).length
      (payload.drop e.logValueSizeLimit) rfl (by simp; omega) (by simp; omega)
      rest (CommonLogKey.part e.regionId e.tableId s
        (some ((payload.length - e.logValueSizeLimit) % U32)))
      (payload.take e.logValueSizeLimit)
      (by simp [CommonLogKey.part]) (by simp [CommonLogKey.part])
      (by simp [CommonLogKey.part]) hrem1
    rw [hfeed, List.take_append_drop]
  · rw [if_neg hsplit, if_neg hsplit]
    rw [List.cons_append, List.nil_append, collectorRun_cons]
    rw [if_pos (by simp [IntegrateLogCollector.collect,
      IntegrateLogCollector.initLog, IntegrateLogCollector.empty,
      IntegrateLogCollector.isIntegrate, CommonLogKey.mk3,
      CommonLogKey.hasRemaining])]
    simp [IntegrateLogCollector.collect, IntegrateLogCollector.initLog,
      IntegrateLogCollector.empty]

/-- Expected output of the reader over the encoded batch: one entry per
payload, labelled with its final part key. -/
def expectedReads (e : LogBatchSplitEncoder) : Nat → List (List Nat) → List KvPair
  | _, [] => []
  | seq, p :: rest =>
    ((if e.logValueSizeLimit < p.length then
        CommonLogKey.part e.regionId e.tableId seq (some 0)
      else CommonLogKey.mk3 e.regionId e.tableId seq), p)
      :: expectedReads e ((seq + 1) % U64) rest

theorem collectorRun_kvsOfEntries (e : LogBatchSplitEncoder)
    (hl : 0 < e.logValueSizeLimit) (entries : List (List Nat)) :
    ∀ seq, (∀ p ∈ entries, p.length < U32) →
      collectorRun (kvsOfEntries e seq entries) IntegrateLogCollector.empty
        = expectedReads e seq entries := by
  induction entries with
  | nil => intro seq _; rfl
  | cons p rest ih =>
    intro seq h
    rw [kvsOfEntries, collectorRun_partsOf e hl p seq _ (h p (by simp)),
      expectedReads, ih _ (fun q hq => h q (by simp [hq]))]

theorem expectedReads_snd (e : LogBatchSplitEncoder) (entries : List (List Nat)) :
    ∀ seq, (expectedReads e seq entries).map Prod.snd = entries := by
  induction entries with
  | nil => intro seq; rfl
  | cons p rest ih => intro seq; simp [expectedReads, ih]

/-- Wrapping sequence-number run `seq, seq+1, ...` of a given length. -/
def seqList : Nat → Nat → List Nat
  | _, 0 => []
  | seq, n + 1 => seq :: seqList ((seq + 1) % U64) n

theorem expectedReads_seq (e : LogBatchSplitEncoder) (entries : List (List Nat)) :
    ∀ seq, (expectedReads e seq entries).map (fun p => p.1.sequenceNum)
      = seqList seq entries.length := by
  induction entries with
  | nil => intro seq; rfl
  | cons p rest ih =>
    intro seq
    rw [expectedReads]
    simp only [List.map_cons, List.length_cons, seqList, ih ((seq + 1) % U64)]
    congr 1
    split <;> simp [CommonLogKey.part, CommonLogKey.mk3]

theorem seqList_no_wrap (n : Nat) :
    ∀ seq, seq + n ≤ U64 → seqList seq n
      = (List.range n).map (fun i => seq + i) := by
  induction n with
  | zero => intro seq _; rfl
  | succ n ih =>
    intro seq hb
    cases n with
    | zero => simp [seqList, List.range_succ]
    | succ m =>
      have h1 : seq + 1 < U64 := by omega
      rw [seqList, Nat.mod_eq_of_lt h1, List.range_succ_eq_map,
        List.map_cons, List.map_map, ih (seq + 1) (by omega)]
      congr 1
      apply List.map_congr_left
      intro i _
      simp only [Function.comp_apply]
      omega

theorem kvsOfEntries_keys (e : LogBatchSplitEncoder) (entries : List (List Nat)) :
    ∀ seq kvp, kvp ∈ kvsOfEntries e seq entries →
      kvp.1.regionId = e.regionId ∧ kvp.1.tableId = e.tableId := by
  induction entries with
  | nil => intro seq kvp h; simp [kvsOfEntries] at h
  | cons p rest ih =>
    intro seq kvp h
    rw [kvsOfEntries] at h
    rcases List.mem_append.mp h with h1 | h2
    · rw [partsOf_eq] at h1
      split at h1
      · simp only [splitKvs, List.mem_map] at h1
        obtain ⟨q, _, rfl⟩ := h1
        exact ⟨rfl, rfl⟩
      · simp only [List.mem_singleton] at h1
        subst h1
        exact ⟨rfl, rfl⟩
    · exact ih _ _ h2

/-- Claim C6 (amended): for every non-empty list of log payloads, each
shorter than `2^32` bytes (the remaining-bytes suffix is a u32), every
positive per-value size limit and a write-batch size limit with room for one
key/value pair, the split encoder succeeds; the flattened write batches are
exactly the per-entry parts, all keyed with the encoder's region and table
ids (split payloads under keys sharing the sequence number, with a
remaining-bytes suffix, as `kvsOfEntries` spells out); and the reader's
collector, fed those pairs consecutively, reassembles exactly the original
payload of every entry, entry `i` under sequence `startSeq + i`. -/
theorem c6_split_encoder_roundtrip (e : LogBatchSplitEncoder)
    (entries : List (List Nat)) (startSeq : Nat)
    (hne : entries ≠ []) (hs : startSeq < U64)
    (hl : 0 < e.logValueSizeLimit)
    (hlim : 28 + e.logValueSizeLimit < e.writeBatchSizeLimit)
    (hsz : ∀ p ∈ entries, p.length < U32) :
    ∃ batches lastSeq,
      e.encode entries startSeq = .ok (batches, lastSeq) ∧
      batches.flatten = kvsOfEntries e startSeq entries ∧
      (∀ kvp ∈ batches.flatten,
        kvp.1.regionId = e.regionId ∧ kvp.1.tableId = e.tableId) ∧
      (collectorRun batches.flatten IntegrateLogCollector.empty).map Prod.snd
        = entries ∧
      (collectorRun batches.flatten IntegrateLogCollector.empty).map
          (fun p => p.1.sequenceNum)
        = seqList startSeq entries.length := by
  obtain ⟨batches, henc, hflat⟩ := encode_ok e entries startSeq hne hs hl hlim
  refine ⟨batches, _, henc, hflat, ?_, ?_, ?_⟩
  · rw [hflat]
    exact kvsOfEntries_keys e entries startSeq
  · rw [hflat, collectorRun_kvsOfEntries e hl entries startSeq hsz,
      expectedReads_snd]
  · rw [hflat, collectorRun_kvsOfEntries e hl entries startSeq hsz,
      expectedReads_seq]

theorem collectorRun_early_emission (e : LogBatchSplitEncoder)
    (hl : 0 < e.logValueSizeLimit) (p : List Nat) (s : Nat) (rest : List KvPair)
    (h1 : e.logValueSizeLimit < p.length)
    (h2 : e.logValueSizeLimit < p.length - e.logValueSizeLimit)
    (hr1 : (p.length - e.logValueSizeLimit) % U32 ≠ 0)
    (hr2 : (p.length - e.logValueSizeLimit - e.logValueSizeLimit) % U32 = 0) :
    ∃ k tail, collectorRun (splitKvs e p s ++ rest) IntegrateLogCollector.empty
      = (k, p.take e.logValueSizeLimit
          ++ (p.drop e.logValueSizeLimit).take e.logValueSizeLimit) :: tail := by
  rw [splitKvs_succ e p s hl h1,
    splitKvs_succ e (p.drop e.logValueSizeLimit) s hl (by simp; omega)]
  rw [List.cons_append, List.cons_append, collectorRun_cons]
  have hrem0 : (CommonLogKey.part e.regionId e.tableId s
      (some ((p.length - e.logValueSizeLimit) % U32))).hasRemaining = true := by
    simp only [CommonLogKey.part, CommonLogKey.hasRemaining]
    simp
    omega
  rw [if_neg (by simp [IntegrateLogCollector.collect,
    IntegrateLogCollector.initLog, IntegrateLogCollector.empty,
    IntegrateLogCollector.isIntegrate, hrem0])]
  rw [show IntegrateLogCollector.empty.collect
      (CommonLogKey.part e.regionId e.tableId s
        (some ((p.length - e.logValueSizeLimit) % U32)))
      (p.take e.logValueSizeLimit)
    = ⟨some (CommonLogKey.part e.regionId e.tableId s
        (some ((p.length - e.logValueSizeLimit) % U32))),
       p.take e.logValueSizeLimit⟩ from rfl]
  rw [collectorRun_cons]
  rw [collect_merge _ _ _ _ hrem0 (by simp [CommonLogKey.part])
    (by simp [CommonLogKey.part]) (by simp [CommonLogKey.part])]
  have hrem1 : (CommonLogKey.part e.regionId e.tableId s
      (some ((p.length - e.logValueSizeLimit - e.logValueSizeLimit)
        % U32))).hasRemaining = false := by
    simp only [CommonLogKey.part, CommonLogKey.hasRemaining]
    simp [hr2]
  rw [if_pos (by simp [IntegrateLogCollector.isIntegrate, hrem1])]
  exact ⟨_, _, rfl⟩

/-- Claim C6, counterexample to the claim as frozen: the remaining-bytes
count is cast to u32 in the encoder, so for a payload of `2^32 + 2000` bytes
and limit 1000 the second part already carries remaining-bytes `0`
(`2^32 % 2^32`), the collector emits after two parts, and the reassembled
payloads do not match the original list. -/
theorem c6_counterexample :
    ∃ batches lastSeq,
      (⟨1000, 10 ^ 9, 0, 0⟩ : LogBatchSplitEncoder).encode
        [List.replicate (U32 + 2000) 0] 100 = .ok (batches, lastSeq) ∧
      (collectorRun batches.flatten IntegrateLogCollector.empty).map Prod.snd
        ≠ [List.replicate (U32 + 2000) 0] := by
  have hproj : (⟨1000, 10 ^ 9, 0, 0⟩ : LogBatchSplitEncoder).logValueSizeLimit
      = 1000 := rfl
  obtain ⟨batches, henc, hflat⟩ := encode_ok ⟨1000, 10 ^ 9, 0, 0⟩
    [List.replicate (U32 + 2000) 0] 100 (by simp) (by norm_num [U64])
    (by norm_num) (by norm_num)
  refine ⟨batches, _, henc, ?_⟩
  rw [hflat, kvsOfEntries, kvsOfEntries, List.append_nil, partsOf_eq,
    if_pos (by rw [List.length_replicate, hproj]; norm_num [U32])]
  obtain ⟨k, tail, hearly⟩ := collectorRun_early_emission
    ⟨1000, 10 ^ 9, 0, 0⟩ (by norm_num) (List.replicate (U32 + 2000) 0) 100 []
    (by rw [List.length_replicate, hproj]; norm_num [U32])
    (by rw [List.length_replicate, hproj]; norm_num [U32])
    (by rw [List.length_replicate, hproj]; norm_num [U32])
    (by rw [List.length_replicate, hproj]; norm_num [U32])
  rw [List.append_nil] at hearly
  rw [hearly]
  intro hcontra
  rw [List.map_cons] at hcontra
  obtain ⟨hhead, -⟩ := List.cons_eq_cons.mp hcontra
  have hlen := congrArg List.length hhead
  rw [List.length_append, List.length_take, List.length_take,
    List.length_drop, List.length_replicate, hproj] at hlen
  rw [show U32 = 4294967296 from by norm_num [U32]] at hlen
  omega

/-- Claim C6, witness: the amended round-trip theorem applied to a concrete
encoder (limit 5) and two payloads, one of which is split. -/
theorem c6_witness :
    ∃ batches lastSeq,
      (⟨5, 1000, 1, 2⟩ : LogBatchSplitEncoder).encode
        [[9, 9, 9, 9, 9, 9, 9], [3]] 50 = .ok (batches, lastSeq) ∧
      batches.flatten
        = kvsOfEntries ⟨5, 1000, 1, 2⟩ 50 [[9, 9, 9, 9, 9, 9, 9], [3]] ∧
      (∀ kvp ∈ batches.flatten,
        kvp.1.regionId = (⟨5, 1000, 1, 2⟩ : LogBatchSplitEncoder).regionId ∧
        kvp.1.tableId = (⟨5, 1000, 1, 2⟩ : LogBatchSplitEncoder).tableId) ∧
      (collectorRun batches.flatten IntegrateLogCollector.empty).map Prod.snd
        = [[9, 9, 9, 9, 9, 9, 9], [3]] ∧
      (collectorRun batches.flatten IntegrateLogCollector.empty).map
          (fun p => p.1.sequenceNum)
        = seqList 50 ([[9, 9, 9, 9, 9, 9, 9], [3]] : List (List Nat)).length :=
  c6_split_encoder_roundtrip ⟨5, 1000, 1, 2⟩ [[9, 9, 9, 9, 9, 9, 9], [3]] 50
    (by simp) (by norm_num [U64]) (by norm_num) (by norm_num)
    (by intro p hp
        simp only [List.mem_cons, List.mem_singleton] at hp
        rcases hp with h | h | h
        · subst h; norm_num [U32]
        · subst h; norm_num [U32]
        · simp at h)

/-- Claim C2 (code bug): `alloc_sequence_num` advances the in-memory last
sequence before the durable KV write, so a write whose KV write fails leaves
the watermark advanced (the FIXME in `load_last_sequence` documents this);
once the advanced value is used by `delete_entries_up_to`, even the sequence
recovered from durable state on reopen moves from 5 to 6 although the only
intervening write returned an error. -/
theorem c2_failed_write_watermark :
    (TableUnitWriter.write_log (some 0) ⟨0, 0, 1, 5⟩
        ⟨[(CommonLogKey.mk3 0 0 1, [0]), (CommonLogKey.mk3 0 0 2, [0]),
          (CommonLogKey.mk3 0 0 3, [0]), (CommonLogKey.mk3 0 0 4, [0]),
          (CommonLogKey.mk3 0 0 5, [0])], some 1⟩ [[7]]).2.2
      = .error .writeLog ∧
    (TableUnitWriter.write_log (some 0) ⟨0, 0, 1, 5⟩
        ⟨[(CommonLogKey.mk3 0 0 1, [0]), (CommonLogKey.mk3 0 0 2, [0]),
          (CommonLogKey.mk3 0 0 3, [0]), (CommonLogKey.mk3 0 0 4, [0]),
          (CommonLogKey.mk3 0 0 5, [0])], some 1⟩ [[7]]).2.1
      = ⟨[(CommonLogKey.mk3 0 0 1, [0]), (CommonLogKey.mk3 0 0 2, [0]),
          (CommonLogKey.mk3 0 0 3, [0]), (CommonLogKey.mk3 0 0 4, [0]),
          (CommonLogKey.mk3 0 0 5, [0])], some 1⟩ ∧
    (TableUnitWriter.write_log (some 0) ⟨0, 0, 1, 5⟩
        ⟨[(CommonLogKey.mk3 0 0 1, [0]), (CommonLogKey.mk3 0 0 2, [0]),
          (CommonLogKey.mk3 0 0 3, [0]), (CommonLogKey.mk3 0 0 4, [0]),
          (CommonLogKey.mk3 0 0 5, [0])], some 1⟩ [[7]]).1.lastSequence = 6 ∧
    reopenLastSequence
      ⟨[(CommonLogKey.mk3 0 0 1, [0]), (CommonLogKey.mk3 0 0 2, [0]),
        (CommonLogKey.mk3 0 0 3, [0]), (CommonLogKey.mk3 0 0 4, [0]),
        (CommonLogKey.mk3 0 0 5, [0])], some 1⟩ 0 0 = some 5 ∧
    reopenLastSequence
      (TableUnitWriter.delete_entries_up_to
        (TableUnitWriter.write_log (some 0) ⟨0, 0, 1, 5⟩
          ⟨[(CommonLogKey.mk3 0 0 1, [0]), (CommonLogKey.mk3 0 0 2, [0]),
            (CommonLogKey.mk3 0 0 3, [0]), (CommonLogKey.mk3 0 0 4, [0]),
            (CommonLogKey.mk3 0 0 5, [0])], some 1⟩ [[7]]).1
        (TableUnitWriter.write_log (some 0) ⟨0, 0, 1, 5⟩
          ⟨[(CommonLogKey.mk3 0 0 1, [0]), (CommonLogKey.mk3 0 0 2, [0]),
            (CommonLogKey.mk3 0 0 3, [0]), (CommonLogKey.mk3 0 0 4, [0]),
            (CommonLogKey.mk3 0 0 5, [0])], some 1⟩ [[7]]).2.1
        6).2 0 0 = some 6 := by
  refine ⟨by rfl, by rfl, by rfl, by rfl, by rfl⟩

/-- One operation on a table unit after a deletion: a (fully successful)
write of a batch, or another `mark_delete_entries_up_to`. -/
inductive TableUnitOp where
  | write (entries : List (List Nat))
  | markDelete (sequenceNum : Nat)
deriving DecidableEq, Repr

/-- Apply one operation to the in-memory and durable state of a table unit. -/
def runOp (s : TableUnitState × TableKvStore) :
    TableUnitOp → TableUnitState × TableKvStore
  | .write entries =>
    ((TableUnitWriter.write_log none s.1 s.2 entries).1,
      (TableUnitWriter.write_log none s.1 s.2 entries).2.1)
  | .markDelete sequenceNum =>
    TableUnitWriter.delete_entries_up_to s.1 s.2 sequenceNum

/-- Apply a list of operations in order. -/
def runOps (s : TableUnitState × TableKvStore) (ops : List TableUnitOp) :
    TableUnitState × TableKvStore :=
  ops.foldl runOp s

theorem write_log_startSequence (failAt : Option Nat) (st : TableUnitState)
    (kv : TableKvStore) (entries : List (List Nat)) :
    (TableUnitWriter.write_log failAt st kv entries).1.startSequence
      = st.startSequence := by
  simp only [TableUnitWriter.write_log, allocSequenceNum]
  by_cases hl : st.lastSequence < MAX_SEQUENCE_NUMBER
  · rw [if_pos hl]
    dsimp only
    cases he : (⟨1000, 1000 * 1000, st.regionId, st.tableId⟩ :
        LogBatchSplitEncoder).encode entries (st.lastSequence + 1) with
    | error e => rfl
    | ok q =>
      obtain ⟨wbs, maxSeq⟩ := q
      dsimp only
      cases hw : applyWriteBatches failAt 0 kv.logs wbs with
      | mk logs2 b => cases b <;> rfl
  · rw [if_neg hl]

theorem delete_startSequence_ge (st : TableUnitState) (kv : TableKvStore)
    (sequenceNum : Nat) :
    st.startSequence ≤
      (TableUnitWriter.delete_entries_up_to st kv sequenceNum).1.startSequence := by
  simp only [TableUnitWriter.delete_entries_up_to]
  split <;> split <;> omega

theorem delete_startSequence_gt (st : TableUnitState) (kv : TableKvStore)
    (sequenceNum : Nat) :
    min sequenceNum st.lastSequence <
      (TableUnitWriter.delete_entries_up_to st kv sequenceNum).1.startSequence := by
  simp only [TableUnitWriter.delete_entries_up_to]
  split <;> split <;> omega

theorem runOp_startSequence_le (s : TableUnitState × TableKvStore)
    (op : TableUnitOp) :
    s.1.startSequence ≤ (runOp s op).1.startSequence := by
  cases op with
  | write entries =>
    simp only [runOp]
    rw [write_log_startSequence]
  | markDelete sequenceNum =>
    simp only [runOp]
    exact delete_startSequence_ge s.1 s.2 sequenceNum

theorem runOps_startSequence_le (ops : List TableUnitOp) :
    ∀ s : TableUnitState × TableKvStore,
      s.1.startSequence ≤ (runOps s ops).1.startSequence := by
  induction ops with
  | nil => intro s; simp [runOps]
  | cons op rest ih =>
    intro s
    have h1 := runOp_startSequence_le s op
    have h2 := ih (runOp s op)
    simp only [runOps, List.foldl_cons] at h2 ⊢
    omega

theorem read_log_entries_start_le (st : TableUnitState) (buckets : List Nat)
    (req : ReadRequest) (logs : List KvPair) (p : KvPair)
    (hp : p ∈ (TableUnit.read_log st buckets req).entries logs) :
    st.startSequence ≤ p.1.sequenceNum := by
  cases hs : req.startB.as_start_sequence_number with
  | none =>
    simp [TableUnit.read_log, hs, TableLogIterator.entries,
      TableLogIterator.new_empty] at hp
  | some rs =>
    cases he : req.endB.as_end_sequence_number with
    | none =>
      simp [TableUnit.read_log, hs, he, TableLogIterator.entries,
        TableLogIterator.new_empty] at hp
    | some re =>
      simp only [TableUnit.read_log, hs, he, TableLogIterator.entries] at hp
      by_cases hb : buckets.length = 0
      · rw [if_pos hb] at hp
        simp at hp
      · rw [if_neg hb] at hp
        have hf := (List.mem_filter.mp hp).2
        simp only [Bool.and_eq_true, decide_eq_true_eq, CommonLogKey.mk3] at hf
        omega

/-- Claim C7: after `mark_delete_entries_up_to(loc, seq)` succeeds, every
subsequent read over that table unit — whatever writes or further deletions
happen in between — yields only entries with sequence strictly greater than
`min(seq, last_sequence at deletion time)`; in particular, writing entries
with sequences `1..=10` and mark-deleting up to 5 makes a full-range read
visit exactly sequences `6..=10`. -/
theorem c7_mark_delete_truncation (st : TableUnitState) (kv : TableKvStore)
    (sequenceNum : Nat) (ops : List TableUnitOp) (buckets : List Nat)
    (req : ReadRequest) (logs : List KvPair) :
    (∀ p ∈ (TableUnit.read_log
        (runOps (TableUnitWriter.delete_entries_up_to st kv sequenceNum) ops).1
        buckets req).entries logs,
      min sequenceNum st.lastSequence < p.1.sequenceNum) ∧
    ((TableUnit.read_log
        (TableUnitWriter.delete_entries_up_to
          (TableUnitWriter.write_log none ⟨0, 0, 0, 0⟩ ⟨[], some 0⟩
            [[1], [2], [3], [4], [5], [6], [7], [8], [9], [10]]).1
          (TableUnitWriter.write_log none ⟨0, 0, 0, 0⟩ ⟨[], some 0⟩
            [[1], [2], [3], [4], [5], [6], [7], [8], [9], [10]]).2.1 5).1
        [0] ⟨0, 0, .min, .max⟩).entries
      (TableUnitWriter.delete_entries_up_to
        (TableUnitWriter.write_log none ⟨0, 0, 0, 0⟩ ⟨[], some 0⟩
          [[1], [2], [3], [4], [5], [6], [7], [8], [9], [10]]).1
        (TableUnitWriter.write_log none ⟨0, 0, 0, 0⟩ ⟨[], some 0⟩
          [[1], [2], [3], [4], [5], [6], [7], [8], [9], [10]]).2.1 5).2.logs
      = [(CommonLogKey.mk3 0 0 6, [6]), (CommonLogKey.mk3 0 0 7, [7]),
         (CommonLogKey.mk3 0 0 8, [8]), (CommonLogKey.mk3 0 0 9, [9]),
         (CommonLogKey.mk3 0 0 10, [10])]) := by
  constructor
  · intro p hp
    have h1 := read_log_entries_start_le
      (runOps (TableUnitWriter.delete_entries_up_to st kv sequenceNum) ops).1
      buckets req logs p hp
    have h2 := runOps_startSequence_le ops
      (TableUnitWriter.delete_entries_up_to st kv sequenceNum)
    have h3 := delete_startSequence_gt st kv sequenceNum
    omega
  · rfl

/-- Little-endian (the target's native-endian) byte encoding of the low
`w` bytes of a value, as `to_ne_bytes` produces for a `w`-byte integer. -/
def leBytes (w v : Nat) : List Nat :=
  (List.range w).map fun i => v / 256 ^ i % 256

/-- Little-endian byte decoding, as `from_ne_bytes` for the matching width. -/
def leVal : List Nat → Nat
  | [] => 0
  | b :: rest => b + 256 * leVal rest

theorem leBytes_succ (w v : Nat) :
    leBytes (w + 1) v = v % 256 :: leBytes w (v / 256) := by
  simp only [leBytes, List.range_succ_eq_map, List.map_cons, List.map_map]
  refine List.cons_eq_cons.mpr ⟨by norm_num, ?_⟩
  apply List.map_congr_left
  intro i _
  simp only [Function.comp_apply, Nat.succ_eq_add_one]
  rw [Nat.div_div_eq_div_mul]
  ring_nf

theorem leVal_leBytes (w v : Nat) : leVal (leBytes w v) = v % 256 ^ w := by
  induction w generalizing v with
  | zero => simp [leBytes, leVal, Nat.mod_one]
  | succ n ih =>
    rw [leBytes_succ, leVal, ih, pow_succ', Nat.mod_mul]

/-- Modelled from the spec: each datum is stored behind a 1-byte kind tag;
the tags are the declaration-order discriminants 0..=16 of `DatumKind` in
`common_types/src/datum.rs` (not staged), with `Null` as 0 — the no-nulls
header relies on the reset fill byte `DatumKind::Null.into_u8()` reading
back as the u32 value 0. -/
inductive DatumKind where
  | null
  | timestamp
  | double
  | float
  | varbinary
  | string
  | uint64
  | uint32
  | uint16
  | uint8
  | int64
  | int32
  | int16
  | int8
  | boolean
  | date
  | time
deriving DecidableEq, Repr

/-- Modelled from the spec: `DatumKind::into_u8`, the 1-byte kind tag. -/
def DatumKind.into_u8 : DatumKind → Nat
  | .null => 0
  | .timestamp => 1
  | .double => 2
  | .float => 3
  | .varbinary => 4
  | .string => 5
  | .uint64 => 6
  | .uint32 => 7
  | .uint16 => 8
  | .uint8 => 9
  | .int64 => 10
  | .int32 => 11
  | .int16 => 12
  | .int8 => 13
  | .boolean => 14
  | .date => 15
  | .time => 16

/-- Modelled from the spec: `DatumKind::try_from(u8)`, rejecting unknown
tags. -/
def DatumKind.tryFrom : Nat → Option DatumKind
  | 0 => some .null
  | 1 => some .timestamp
  | 2 => some .double
  | 3 => some .float
  | 4 => some .varbinary
  | 5 => some .string
  | 6 => some .uint64
  | 7 => some .uint32
  | 8 => some .uint16
  | 9 => some .uint8
  | 10 => some .int64
  | 11 => some .int32
  | 12 => some .int16
  | 13 => some .int8
  | 14 => some .boolean
  | 15 => some .date
  | 16 => some .time
  | _ => none

/-- Modelled from the spec: a datum value. Numeric payloads are the
native-endian bit patterns as natural numbers (below `2 ^ (8 w)` for a
`w`-byte type); strings and varbinaries are byte lists. `DatumView` (the
borrowed form the reader returns) is represented by the same type. -/
inductive Datum where
  | null
  | timestamp (v : Nat)
  | double (v : Nat)
  | float (v : Nat)
  | varbinary (v : List Nat)
  | string (v : List Nat)
  | uint64 (v : Nat)
  | uint32 (v : Nat)
  | uint16 (v : Nat)
  | uint8 (v : Nat)
  | int64 (v : Nat)
  | int32 (v : Nat)
  | int16 (v : Nat)
  | int8 (v : Nat)
  | boolean (v : Bool)
  | date (v : Nat)
  | time (v : Nat)
deriving DecidableEq, Repr

/-- Modelled from the spec: `Datum::kind`. -/
def Datum.kind : Datum → DatumKind
  | .null => .null
  | .timestamp _ => .timestamp
  | .double _ => .double
  | .float _ => .float
  | .varbinary _ => .varbinary
  | .string _ => .string
  | .uint64 _ => .uint64
  | .uint32 _ => .uint32
  | .uint16 _ => .uint16
  | .uint8 _ => .uint8
  | .int64 _ => .int64
  | .int32 _ => .int32
  | .int16 _ => .int16
  | .int8 _ => .int8
  | .boolean _ => .boolean
  | .date _ => .date
  | .time _ => .time

/-- Modelled from the spec: `Datum::is_null`. -/
def Datum.is_null : Datum → Bool
  | .null => true
  | _ => false

/-- Modelled from the spec: `Datum::is_fixed_sized` — every kind but the
string and varbinary ones. -/
def Datum.is_fixed_sized : Datum → Bool
  | .varbinary _ => false
  | .string _ => false
  | _ => true

/-- Modelled from the spec: `Datum::size`, the in-memory payload size; for
the variable-length kinds it is the byte length (the only uses in the
writer are for those kinds). -/
def Datum.size : Datum → Nat
  | .null => 1
  | .timestamp _ => 8
  | .double _ => 8
  | .float _ => 4
  | .varbinary v => v.length
  | .string v => v.length
  | .uint64 _ => 8
  | .uint32 _ => 4
  | .uint16 _ => 2
  | .uint8 _ => 1
  | .int64 _ => 8
  | .int32 _ => 4
  | .int16 _ => 2
  | .int8 _ => 1
  | .boolean _ => 1
  | .date _ => 4
  | .time _ => 8

/-- Source translation of `byte_size_of_datum`: payload size plus one
header byte; string kinds store a 4-byte offset. -/
def byte_size_of_datum : DatumKind → Nat
  | .null => 1 + 1
  | .timestamp => 8 + 1
  | .double => 8 + 1
  | .float => 4 + 1
  | .varbinary => 4 + 1
  | .string => 4 + 1
  | .uint64 => 8 + 1
  | .uint32 => 4 + 1
  | .uint16 => 2 + 1
  | .uint8 => 1 + 1
  | .int64 => 8 + 1
  | .int32 => 4 + 1
  | .int16 => 2 + 1
  | .int8 => 1 + 1
  | .boolean => 1 + 1
  | .date => 4 + 1
  | .time => 8 + 1

/-- Max allowed string length of a datum (16 MiB), `MAX_STRING_LEN`. -/
def MAX_STRING_LEN : Nat := 1024 * 1024 * 16

/-- Max allowed length of total bytes in a contiguous row (1 GiB),
`MAX_ROW_LEN`. -/
def MAX_ROW_LEN : Nat := 1024 * 1024 * 1024

/-- Modelled from the spec: `BitSet::num_bytes`, one byte per 8 bits. -/
def BitSet.num_bytes (n : Nat) : Nat := (n + 7) / 8

/-- Modelled from the spec: `BitSet::set` — set bit `i` (LSB-first within
each byte) of the byte array. -/
def bitSetBit (bytes : List Nat) (i : Nat) : List Nat :=
  bytes.set (i / 8) (Nat.lor (bytes.getD (i / 8) 0) (2 ^ (i % 8)))

/-- Modelled from the spec: `BitSet::is_set`, `none` past the bit count. -/
def bitIsSet (bytes : List Nat) (numBits i : Nat) : Option Bool :=
  if i < numBits then some ((bytes.getD (i / 8) 0).testBit (i % 8)) else none

/-- Modelled from the spec: a schema is its ordered column kinds. -/
structure Schema where
  columns : List DatumKind
deriving DecidableEq, Repr

/-- Modelled from the spec: `Schema::num_columns`. -/
def Schema.num_columns (s : Schema) : Nat := s.columns.length

def byteOffsetsGo : List DatumKind → Nat → List Nat
  | [], _ => []
  | k :: rest, acc => acc :: byteOffsetsGo rest (acc + byte_size_of_datum k)

/-- Modelled from the spec: `Schema::byte_offsets`, each column's offset in
the fixed-datum area (prefix sums of `byte_size_of_datum`). -/
def Schema.byte_offsets (s : Schema) : List Nat := byteOffsetsGo s.columns 0

/-- Modelled from the spec: `Schema::string_buffer_offset`, the end of the
fixed-datum area. -/
def Schema.string_buffer_offset (s : Schema) : Nat :=
  (s.columns.map byte_size_of_datum).sum

/-- Errors of `common_types::row::contiguous` plus `panicked` for the
out-of-bounds slice accesses that panic in the source. -/
inductive RowError where
  | stringTooLong (len : Nat)
  | rowTooLong (len : Nat)
  | numNullColsMissing
  | invalidBitSetBytes (expect given : Nat)
  | panicked
deriving DecidableEq, Repr

/-- Source translation of `write_byte_to_offset`: `inner[*offset] = value`
panics when the offset is out of bounds. -/
def wByte (buf : List Nat) (off v : Nat) : Except RowError (List Nat) :=
  if off < buf.length then .ok (buf.set off v) else .error .panicked

/-- Source translation of `write_slice_to_offset`: overwrite
`buf[off..off + src.len()]`, panicking when the range is out of bounds. -/
def wSlice (buf : List Nat) (off : Nat) (src : List Nat) :
    Except RowError (List Nat) :=
  if off + src.length ≤ buf.length then
    .ok (buf.take off ++ src ++ buf.drop (off + src.length))
  else .error .panicked

/-- Common shape of the fixed-size arms of `write_datum`: write the kind
tag byte, then the native-endian payload bytes at the datum offset. -/
def writeFixed (inner : List Nat) (offset tag : Nat) (valueBuf : List Nat)
    (nso : Nat) : Except RowError (List Nat × Nat × Nat) :=
  match wByte inner offset tag with
  | .error e => .error e
  | .ok b1 =>
    match wSlice b1 (offset + 1) valueBuf with
    | .error e => .error e
    | .ok b2 => .ok (b2, offset + 1 + valueBuf.length, nso)

/-- Common shape of the `Varbinary`/`String` arms of `write_datum`,
translated from the source in statement order: write the tag, ensure the
accumulated string offset is at most `MAX_ROW_LEN` (reported as
`StringTooLong`), write the offset truncated to u32 into the datum area,
advance `next_string_offset` by `4 + len`, ensure the length is at most
`MAX_STRING_LEN`, then write the u32 length and the bytes at the advanced
`next_string_offset` (which both writes advance further). -/
def writeVar (inner : List Nat) (offset tag : Nat) (v : List Nat)
    (nso : Nat) : Except RowError (List Nat × Nat × Nat) :=
  match wByte inner offset tag with
  | .error e => .error e
  | .ok b1 =>
    if nso ≤ MAX_ROW_LEN then
      match wSlice b1 (offset + 1) (leBytes 4 nso) with
      | .error e => .error e
      | .ok b2 =>
        let nso1 := nso + 4 + v.length
        if v.length ≤ MAX_STRING_LEN then
          match wSlice b2 nso1 (leBytes 4 v.length) with
          | .error e => .error e
          | .ok b3 =>
            match wSlice b3 (nso1 + 4) v with
            | .error e => .error e
            | .ok b4 => .ok (b4, offset + 1 + 4, nso1 + 4 + v.length)
        else .error (.stringTooLong v.length)
    else .error (.stringTooLong nso)

/-- Source translation of `ContiguousRowWriter::write_datum`: returns the
updated buffer, datum offset and next string offset. -/
def ContiguousRowWriter.write_datum (inner : List Nat) (datum : Datum)
    (offset nso : Nat) : Except RowError (List Nat × Nat × Nat) :=
  match datum with
  | .null => .ok (inner, offset, nso)
  | .timestamp v => writeFixed inner offset DatumKind.timestamp.into_u8 (leBytes 8 v) nso
  | .double v => writeFixed inner offset DatumKind.double.into_u8 (leBytes 8 v) nso
  | .float v => writeFixed inner offset DatumKind.float.into_u8 (leBytes 4 v) nso
  | .varbinary v => writeVar inner offset DatumKind.varbinary.into_u8 v nso
  | .string v => writeVar inner offset DatumKind.string.into_u8 v nso
  | .uint64 v => writeFixed inner offset DatumKind.uint64.into_u8 (leBytes 8 v) nso
  | .uint32 v => writeFixed inner offset DatumKind.uint32.into_u8 (leBytes 4 v) nso
  | .uint16 v => writeFixed inner offset DatumKind.uint16.into_u8 (leBytes 2 v) nso
  | .uint8 v => writeFixed inner offset DatumKind.uint8.into_u8 (leBytes 1 v) nso
  | .int64 v => writeFixed inner offset DatumKind.int64.into_u8 (leBytes 8 v) nso
  | .int32 v => writeFixed inner offset DatumKind.int32.into_u8 (leBytes 4 v) nso
  | .int16 v => writeFixed inner offset DatumKind.int16.into_u8 (leBytes 2 v) nso
  | .int8 v => writeFixed inner offset DatumKind.int8.into_u8 (leBytes 1 v) nso
  | .boolean v => writeFixed inner offset DatumKind.boolean.into_u8 [if v then 1 else 0] nso
  | .date v => writeFixed inner offset DatumKind.date.into_u8 (leBytes 4 v) nso
  | .time v => writeFixed inner offset DatumKind.time.into_u8 (leBytes 8 v) nso

/-- First pass of `write_row`: count the null columns (a table column with
no writer mapping also counts as null). -/
def countNullCols (iw : List (Option Nat)) (row : List Datum) :
    List Nat → Nat
  | [] => 0
  | i :: rest =>
    (match iw.getD i none with
     | some wi => if (row.getD wi Datum.null).is_null then 1 else 0
     | none => 1) + countNullCols iw row rest

/-- First pass of `write_row_with_nulls`: total fixed-area bytes of the
non-null mapped columns. -/
def encodedLenDatums (iw : List (Option Nat)) (row : List Datum) :
    List Nat → Nat
  | [] => 0
  | i :: rest =>
    (match iw.getD i none with
     | some wi =>
       if ¬ (row.getD wi Datum.null).is_null then
         byte_size_of_datum (row.getD wi Datum.null).kind
       else 0
     | none => 0) + encodedLenDatums iw row rest

/-- String-heap bytes of the mapped variable-length columns: content plus
a 4-byte length each (`num_bytes_of_string` in both row writers). -/
def numBytesOfString (iw : List (Option Nat)) (row : List Datum) :
    List Nat → Nat
  | [] => 0
  | i :: rest =>
    (match iw.getD i none with
     | some wi =>
       if ¬ (row.getD wi Datum.null).is_fixed_sized then
         (row.getD wi Datum.null).size + 4
       else 0
     | none => 0) + numBytesOfString iw row rest

/-- Datum-writing loop of `write_row_without_nulls` over the table column
indices, threading (buffer, datum offset, next string offset). -/
def writeDatumsNoBitset (iw : List (Option Nat)) (row : List Datum) :
    List Nat → List Nat × Nat × Nat → Except RowError (List Nat × Nat × Nat)
  | [], st => .ok st
  | i :: rest, (buf, off, nso) =>
    match iw.getD i none with
    | some wi =>
      match ContiguousRowWriter.write_datum buf (row.getD wi Datum.null) off nso with
      | .ok st2 => writeDatumsNoBitset iw row rest st2
      | .error e => .error e
    | none => writeDatumsNoBitset iw row rest (buf, off, nso)

/-- Datum-writing loop of `write_row_with_nulls`: additionally sets the
presence bit — unconditionally, at the writer index, exactly as the source
does after each `write_datum` call. -/
def writeDatumsWithBitset (iw : List (Option Nat)) (row : List Datum) :
    List Nat → List Nat × Nat × Nat × List Nat →
    Except RowError (List Nat × Nat × Nat × List Nat)
  | [], st => .ok st
  | i :: rest, (buf, off, nso, bits) =>
    match iw.getD i none with
    | some wi =>
      match ContiguousRowWriter.write_datum buf (row.getD wi Datum.null) off nso with
      | .ok (b2, o2, n2) =>
        writeDatumsWithBitset iw row rest (b2, o2, n2, bitSetBit bits wi)
      | .error e => .error e
    | none => writeDatumsWithBitset iw row rest (buf, off, nso, bits)

/-- Source translation of `write_row_with_nulls`: compute the fixed-area
length of the non-null columns and the string-heap size, append the
`4 + bitset` header to the encoded length, reset the buffer to zeros,
write the datums (setting presence bits unconditionally), then store the
column count and the bitset bytes at the front. -/
def ContiguousRowWriter.write_row_with_nulls (schema : Schema)
    (iw : List (Option Nat)) (row : List Datum) : Except RowError (List Nat) :=
  let n := schema.num_columns
  let idxs := List.range n
  let bitSetSize := BitSet.num_bytes n
  let encodedLen := encodedLenDatums iw row idxs + (4 + bitSetSize)
  let numStr := numBytesOfString iw row idxs
  let buf0 := List.replicate encodedLen 0
  let bits0 := List.replicate bitSetSize 0
  match writeDatumsWithBitset iw row idxs
      (buf0, 4 + bitSetSize, encodedLen - numStr, bits0) with
  | .error e => .error e
  | .ok (buf1, _, _, bits1) =>
    match wSlice buf1 0 (leBytes 4 n) with
    | .error e => .error e
    | .ok buf2 =>
      match wSlice buf2 4 bits1 with
      | .error e => .error e
      | .ok buf3 => .ok buf3

/-- Source translation of `write_row_without_nulls`: the buffer is the
fixed-datum area (`string_buffer_offset + 4`) plus the string heap, filled
with the `Null` kind tag, then every mapped datum is written in order. -/
def ContiguousRowWriter.write_row_without_nulls (schema : Schema)
    (iw : List (Option Nat)) (row : List Datum) : Except RowError (List Nat) :=
  let n := schema.num_columns
  let idxs := List.range n
  let datumBufferLen := schema.string_buffer_offset + 4
  let encodedLen := datumBufferLen + numBytesOfString iw row idxs
  let buf0 := List.replicate encodedLen DatumKind.null.into_u8
  match writeDatumsNoBitset iw row idxs (buf0, 4, datumBufferLen) with
  | .error e => .error e
  | .ok (buf1, _, _) => .ok buf1

/-- Source translation of `ContiguousRowWriter::write_row`: choose the
with-nulls form exactly when some column is null or unmapped. -/
def ContiguousRowWriter.write_row (schema : Schema) (iw : List (Option Nat))
    (row : List Datum) : Except RowError (List Nat) :=
  if 0 < countNullCols iw row (List.range schema.num_columns) then
    ContiguousRowWriter.write_row_with_nulls schema iw row
  else
    ContiguousRowWriter.write_row_without_nulls schema iw row

/-- Source translation of `must_read_bytes`: read the u32 heap offset from
the datum area, then `[u32 len][bytes]` from the heap; every out-of-bounds
slice is a panic (`none`). -/
def must_read_bytes (datumBuf stringBuf : List Nat) : Option (List Nat) :=
  if 4 ≤ datumBuf.length then
    let off := leVal (datumBuf.take 4)
    if off ≤ stringBuf.length then
      let s1 := stringBuf.drop off
      if 4 ≤ s1.length then
        let len := leVal (s1.take 4)
        let s2 := s1.drop 4
        if len ≤ s2.length then some (s2.take len) else none
      else none
    else none
  else none

/-- Source translation of `must_read_view`: decode the payload for the
given kind from the datum buffer (panics are `none`). -/
def must_read_view (kind : DatumKind) (datumBuf stringBuf : List Nat) :
    Option Datum :=
  match kind with
  | .null => some .null
  | .timestamp =>
    if 8 ≤ datumBuf.length then some (.timestamp (leVal (datumBuf.take 8))) else none
  | .double =>
    if 8 ≤ datumBuf.length then some (.double (leVal (datumBuf.take 8))) else none
  | .float =>
    if 4 ≤ datumBuf.length then some (.float (leVal (datumBuf.take 4))) else none
  | .varbinary => (must_read_bytes datumBuf stringBuf).map .varbinary
  | .string => (must_read_bytes datumBuf stringBuf).map .string
  | .uint64 =>
    if 8 ≤ datumBuf.length then some (.uint64 (leVal (datumBuf.take 8))) else none
  | .uint32 =>
    if 4 ≤ datumBuf.length then some (.uint32 (leVal (datumBuf.take 4))) else none
  | .uint16 =>
    if 2 ≤ datumBuf.length then some (.uint16 (leVal (datumBuf.take 2))) else none
  | .uint8 =>
    if 1 ≤ datumBuf.length then some (.uint8 (datumBuf.getD 0 0)) else none
  | .int64 =>
    if 8 ≤ datumBuf.length then some (.int64 (leVal (datumBuf.take 8))) else none
  | .int32 =>
    if 4 ≤ datumBuf.length then some (.int32 (leVal (datumBuf.take 4))) else none
  | .int16 =>
    if 2 ≤ datumBuf.length then some (.int16 (leVal (datumBuf.take 2))) else none
  | .int8 =>
    if 1 ≤ datumBuf.length then some (.int8 (datumBuf.getD 0 0)) else none
  | .boolean =>
    if 1 ≤ datumBuf.length then some (.boolean (datumBuf.getD 0 0 ≠ 0)) else none
  | .date =>
    if 4 ≤ datumBuf.length then some (.date (leVal (datumBuf.take 4))) else none
  | .time =>
    if 8 ≤ datumBuf.length then some (.time (leVal (datumBuf.take 8))) else none

/-- Source translation of the free function `datum_view_at`: read the kind
tag (unknown tags read as Null), skip the header byte, decode the view. -/
def datumViewAtBuf (datumBuf stringBuf : List Nat) : Option Datum :=
  match datumBuf with
  | [] => none
  | b :: rest =>
    match DatumKind.tryFrom b with
    | none => some .null
    | some kind => must_read_view kind rest stringBuf

/-- The per-column offsets computed by `ContiguousRowReaderWithNulls`:
a set presence bit yields the schema offset minus the accumulated bytes of
the absent columns; an unset or out-of-range bit yields a null column. -/
def colOffsetsGo (bits : List Nat) (numBits : Nat) :
    List (DatumKind × Nat) → Nat → Nat → List (Option Nat)
  | [], _, _ => []
  | (k, off) :: rest, idx, acc =>
    match bitIsSet bits numBits idx with
    | some true => some (off - acc) :: colOffsetsGo bits numBits rest (idx + 1) acc
    | some false =>
      none :: colOffsetsGo bits numBits rest (idx + 1) (acc + byte_size_of_datum k)
    | none => none :: colOffsetsGo bits numBits rest (idx + 1) acc

/-- The two reader forms (`ContiguousRowReader`), each carrying the full
encoded buffer, the per-column offsets and the datum-area offset. -/
inductive ContiguousRowReader where
  | noNulls (inner : List Nat) (byteOffsets : List Nat) (datumOffset : Nat)
  | withNulls (inner : List Nat) (byteOffsets : List (Option Nat)) (datumOffset : Nat)
deriving DecidableEq, Repr

/-- Source translation of `ContiguousRowReader::try_new` together with
`ContiguousRowReaderWithNulls::try_new`: read the leading u32, choose the
no-nulls reader when it is zero, otherwise validate the bitset bytes and
precompute the per-column offsets. -/
def ContiguousRowReader.try_new (inner : List Nat) (schema : Schema) :
    Except RowError ContiguousRowReader :=
  if 4 ≤ inner.length then
    let numNullCols := leVal (inner.take 4)
    if 0 < numNullCols then
      let bitSetSize := BitSet.num_bytes numNullCols
      if bitSetSize ≤ (inner.drop 4).length then
        let bits := (inner.drop 4).take bitSetSize
        .ok (.withNulls inner
          (colOffsetsGo bits numNullCols (schema.columns.zip schema.byte_offsets) 0 0)
          (4 + bitSetSize))
      else .error (.invalidBitSetBytes bitSetSize (inner.drop 4).length)
    else .ok (.noNulls inner schema.byte_offsets 4)
  else .error .numNullColsMissing

/-- Source translation of `datum_view_at` for both reader forms: a negative
precomputed offset reads as Null, otherwise the view is decoded at the
datum-area offset (out-of-bounds indexing panics: `none`). -/
def ContiguousRowReader.datum_view_at : ContiguousRowReader → Nat → Option Datum
  | .noNulls inner offs doff, index =>
    match offs.get? index with
    | none => none
    | some off =>
      if doff + off ≤ inner.length then
        datumViewAtBuf (inner.drop (doff + off)) inner
      else none
  | .withNulls inner offs doff, index =>
    match offs.get? index with
    | none => none
    | some none => some .null
    | some (some off) =>
      if doff + off ≤ inner.length then
        datumViewAtBuf (inner.drop (doff + off)) inner
      else none

/-- Claim C4 (code bug): `write_row_with_nulls` sets the presence bit for
every mapped column — including null ones — because the
`nulls_bit_set.set(writer_index)` call has no null guard. Encoding the row
`[null, int64 5]` against a two-int64 schema therefore produces a buffer
whose reader returns `int64 5` for column 0 (instead of null) and panics
for column 1 (its computed offset points past the datum area), so the
round trip fails on both columns. -/
theorem c4_null_presence_bit_bug :
    ContiguousRowWriter.write_row ⟨[.int64, .int64]⟩ [some 0, some 1]
        [.null, .int64 5]
      = .ok [2, 0, 0, 0, 3, 10, 5, 0, 0, 0, 0, 0, 0, 0] ∧
    Except.map
        (fun r => (ContiguousRowReader.datum_view_at r 0,
          ContiguousRowReader.datum_view_at r 1))
        (ContiguousRowReader.try_new [2, 0, 0, 0, 3, 10, 5, 0, 0, 0, 0, 0, 0, 0]
          ⟨[.int64, .int64]⟩)
      = .ok (some (.int64 5), none) ∧
    some (Datum.int64 5) ≠ some Datum.null ∧
    (none : Option Datum) ≠ some Datum.null := by
  refine ⟨by rfl, by rfl, by decide, by decide⟩

/-- A variable-length datum longer than `MAX_STRING_LEN`. -/
def oversizedVar (d : Datum) : Prop :=
  match d with
  | .varbinary v => MAX_STRING_LEN < v.length
  | .string v => MAX_STRING_LEN < v.length
  | _ => False

theorem write_datum_oversized (buf : List Nat) (d : Datum) (off nso : Nat)
    (hd : oversizedVar d) :
    ∃ e, ContiguousRowWriter.write_datum buf d off nso = .error e := by
  cases d <;> simp only [oversizedVar] at hd
  all_goals {
    rename_i v
    simp only [ContiguousRowWriter.write_datum, writeVar]
    cases hwb : wByte buf off _ with
    | error e => exact ⟨e, rfl⟩
    | ok b1 =>
      dsimp only
      by_cases hrow : nso ≤ MAX_ROW_LEN
      · simp only [if_pos hrow]
        cases hws : wSlice b1 (off + 1) (leBytes 4 nso) with
        | error e => exact ⟨e, rfl⟩
        | ok b2 =>
          simp only [if_neg (show ¬ v.length ≤ MAX_STRING_LEN by omega)]
          exact ⟨.stringTooLong v.length, rfl⟩
      · simp only [if_neg hrow]
        exact ⟨.stringTooLong nso, rfl⟩
  }

theorem writeDatumsNoBitset_oversized (iw : List (Option Nat))
    (row : List Datum) (idxs : List Nat) (i wi : Nat) (hmem : i ∈ idxs)
    (hiw : iw.getD i none = some wi)
    (hd : oversizedVar (row.getD wi Datum.null)) :
    ∀ st, ∃ e, writeDatumsNoBitset iw row idxs st = .error e := by
  induction idxs with
  | nil => simp at hmem
  | cons a rest ih =>
    intro st
    obtain ⟨buf, off, nso⟩ := st
    rcases List.mem_cons.mp hmem with rfl | hmem2
    · simp only [writeDatumsNoBitset, hiw]
      obtain ⟨e, he⟩ := write_datum_oversized buf _ off nso hd
      rw [he]
      exact ⟨e, rfl⟩
    · simp only [writeDatumsNoBitset]
      cases hgw : iw.getD a none with
      | none => dsimp only; exact ih hmem2 (buf, off, nso)
      | some wa =>
        dsimp only
        cases hwd : ContiguousRowWriter.write_datum buf (row.getD wa Datum.null) off nso with
        | ok st2 => dsimp only; exact ih hmem2 st2
        | error e => exact ⟨e, rfl⟩

theorem writeDatumsWithBitset_oversized (iw : List (Option Nat))
    (row : List Datum) (idxs : List Nat) (i wi : Nat) (hmem : i ∈ idxs)
    (hiw : iw.getD i none = some wi)
    (hd : oversizedVar (row.getD wi Datum.null)) :
    ∀ st, ∃ e, writeDatumsWithBitset iw row idxs st = .error e := by
  induction idxs with
  | nil => simp at hmem
  | cons a rest ih =>
    intro st
    obtain ⟨buf, off, nso, bits⟩ := st
    rcases List.mem_cons.mp hmem with rfl | hmem2
    · simp only [writeDatumsWithBitset, hiw]
      obtain ⟨e, he⟩ := write_datum_oversized buf _ off nso hd
      rw [he]
      exact ⟨e, rfl⟩
    · simp only [writeDatumsWithBitset]
      cases hgw : iw.getD a none with
      | none => dsimp only; exact ih hmem2 (buf, off, nso, bits)
      | some wa =>
        dsimp only
        cases hwd : ContiguousRowWriter.write_datum buf (row.getD wa Datum.null) off nso with
        | ok st2 =>
          obtain ⟨b2, o2, n2⟩ := st2
          dsimp only
          exact ih hmem2 (b2, o2, n2, bitSetBit bits wa)
        | error e => exact ⟨e, rfl⟩

theorem write_row_oversized (schema : Schema) (iw : List (Option Nat))
    (row : List Datum) (i wi : Nat) (hi : i < schema.num_columns)
    (hiw : iw.getD i none = some wi)
    (hd : oversizedVar (row.getD wi Datum.null)) :
    ∃ e, ContiguousRowWriter.write_row schema iw row = .error e := by
  have hmem : i ∈ List.range schema.num_columns := List.mem_range.mpr hi
  simp only [ContiguousRowWriter.write_row]
  by_cases hn : 0 < countNullCols iw row (List.range schema.num_columns)
  · rw [if_pos hn]
    simp only [ContiguousRowWriter.write_row_with_nulls]
    obtain ⟨e, he⟩ := writeDatumsWithBitset_oversized iw row _ i wi hmem hiw hd
      (List.replicate (encodedLenDatums iw row (List.range schema.num_columns) +
          (4 + BitSet.num_bytes schema.num_columns)) 0,
        4 + BitSet.num_bytes schema.num_columns,
        encodedLenDatums iw row (List.range schema.num_columns) +
          (4 + BitSet.num_bytes schema.num_columns) -
          numBytesOfString iw row (List.range schema.num_columns),
        List.replicate (BitSet.num_bytes schema.num_columns) 0)
    rw [he]
    exact ⟨e, rfl⟩
  · rw [if_neg hn]
    simp only [ContiguousRowWriter.write_row_without_nulls]
    obtain ⟨e, he⟩ := writeDatumsNoBitset_oversized iw row _ i wi hmem hiw hd
      (List.replicate (schema.string_buffer_offset + 4 +
          numBytesOfString iw row (List.range schema.num_columns))
          DatumKind.null.into_u8,
        4, schema.string_buffer_offset + 4)
    rw [he]
    exact ⟨e, rfl⟩

/-- The flip side of the amended claim: an in-limit variable-length datum
makes the writer panic, because the staged `write_datum` advances
`next_string_offset` by `4 + len` before writing the length and content at
it, pushing the heap writes past the allocated buffer. Even a single-column
row with a 1-byte string panics instead of encoding. -/
theorem write_row_small_string_panics :
    ContiguousRowWriter.write_row ⟨[DatumKind.string]⟩ [some 0]
        [Datum.string [7]]
      = .error .panicked := by rfl

/-- Total weight of cache entries: insertion weight is the byte length of
the value (`CustomScale::weight`). Keys are modelled by their hash. -/
def weightOf (l : List (Nat × List Nat)) : Nat :=
  (l.map fun e => e.2.length).sum

/-- One cache partition: its capacity and its entries in recency order
(front = most recently used). -/
structure Partition where
  cap : Nat
  entries : List (Nat × List Nat)
deriving DecidableEq, Repr

/-- Modelled from the spec: evict least-recently-used entries (from the
back) until the new weight fits the capacity. The fuel is the entry count,
one eviction per step. -/
def shrinkToFit (cap w : Nat) : Nat → List (Nat × List Nat) → List (Nat × List Nat)
  | 0, l => l
  | fuel + 1, l =>
    if weightOf l + w ≤ cap then l else shrinkToFit cap w fuel l.dropLast

/-- Modelled from the spec: `Partition::get` returns the value and promotes
the entry to most-recently-used. -/
def Partition.get (p : Partition) (k : Nat) :
    Option (List Nat) × Partition :=
  match p.entries.find? (fun e => decide (e.1 = k)) with
  | some e =>
    (some e.2,
      { p with entries := e :: p.entries.filter fun e2 => decide (e2.1 ≠ k) })
  | none => (none, p)

/-- Modelled from the spec: `Partition::insert` (`put_with_weight`, its
error ignored): a value heavier than the whole partition capacity is
rejected silently; otherwise any entry under the same key is replaced and
least-recently-used entries are evicted until the new value fits. -/
def Partition.insert (p : Partition) (k : Nat) (v : List Nat) : Partition :=
  if p.cap < v.length then p
  else
    let remaining := p.entries.filter fun e => decide (e.1 ≠ k)
    { p with entries := (k, v) :: shrinkToFit p.cap v.length remaining.length remaining }

/-- Source translation of `MemCache` (the partitioned cache). -/
structure MemCache where
  memCap : Nat
  partitions : List Partition
  partitionMask : Nat
deriving DecidableEq, Repr

/-- Source translation of `MemCache::new`: `1 << partition_bits` partitions,
each of capacity `mem_cap / partition_num` (the `NonZeroUsize` expect
requires that quotient to be positive), mask `partition_num - 1`. -/
def MemCache.new (partitionBits memCap : Nat) : MemCache :=
  let partitionNum := 2 ^ partitionBits
  let capPerPart := memCap / partitionNum
  ⟨memCap, List.replicate partitionNum ⟨capPerPart, []⟩, partitionNum - 1⟩

/-- A get or an insert against the cache; the key stands for its hash
(`locate_partition` masks the key's hash with `partition_mask`). -/
inductive CacheOp where
  | get (k : Nat)
  | insert (k : Nat) (v : List Nat)
deriving DecidableEq, Repr

/-- Source translation of `MemCache::get`/`MemCache::insert`: locate the
partition by masked hash and apply the partition operation. -/
def MemCache.applyOp (c : MemCache) : CacheOp → MemCache
  | .get k =>
    match c.partitions.get? (Nat.land k c.partitionMask) with
    | some p =>
      { c with partitions :=
          c.partitions.set (Nat.land k c.partitionMask) (p.get k).2 }
    | none => c
  | .insert k v =>
    match c.partitions.get? (Nat.land k c.partitionMask) with
    | some p =>
      { c with partitions :=
          c.partitions.set (Nat.land k c.partitionMask) (p.insert k v) }
    | none => c

/-- Run a sequence of cache operations. -/
def MemCache.runOps (c : MemCache) (ops : List CacheOp) : MemCache :=
  ops.foldl MemCache.applyOp c

/-- Total bytes held across all partitions. -/
def MemCache.totalBytes (c : MemCache) : Nat :=
  (c.partitions.map fun p => weightOf p.entries).sum

theorem weightOf_filter_le (l : List (Nat × List Nat))
    (f : Nat × List Nat → Bool) : weightOf (l.filter f) ≤ weightOf l := by
  induction l with
  | nil => simp [weightOf]
  | cons a rest ih =>
    by_cases h : f a
    · simp only [weightOf, List.filter_cons, if_pos h, List.map_cons, List.sum_cons]
      exact Nat.add_le_add_left ih _
    · simp only [weightOf, List.filter_cons, if_neg h, List.map_cons, List.sum_cons]
      exact Nat.le_add_left _ _ |>.trans (Nat.add_le_add_left ih _)

theorem weightOf_split (l : List (Nat × List Nat)) (k : Nat) :
    weightOf l = weightOf (l.filter fun e => decide (e.1 = k))
      + weightOf (l.filter fun e => decide (e.1 ≠ k)) := by
  induction l with
  | nil => simp [weightOf]
  | cons a rest ih =>
    by_cases h : a.1 = k
    · subst h
      simp [weightOf, List.filter_cons] at ih ⊢
      omega
    · simp [weightOf, List.filter_cons, h] at ih ⊢
      omega

theorem weight_mem_le (l : List (Nat × List Nat)) (a : Nat × List Nat)
    (ha : a ∈ l) : a.2.length ≤ weightOf l := by
  induction l with
  | nil => simp at ha
  | cons b rest ih =>
    rcases List.mem_cons.mp ha with rfl | h2
    · simp [weightOf]
    · simp only [weightOf, List.map_cons, List.sum_cons]
      exact (ih h2).trans (Nat.le_add_left _ _)

theorem shrinkToFit_fits (cap w : Nat) (hw : w ≤ cap) :
    ∀ fuel l, l.length ≤ fuel →
      weightOf (shrinkToFit cap w fuel l) + w ≤ cap := by
  intro fuel
  induction fuel with
  | zero =>
    intro l hl
    have : l = [] := List.length_eq_zero.mp (by omega)
    subst this
    simpa [shrinkToFit, weightOf]
  | succ fuel ih =>
    intro l hl
    simp only [shrinkToFit]
    by_cases h : weightOf l + w ≤ cap
    · rwa [if_pos h]
    · rw [if_neg h]
      apply ih
      rw [List.length_dropLast]
      omega

theorem Partition.get_cap (p : Partition) (k : Nat) : (p.get k).2.cap = p.cap := by
  unfold Partition.get
  cases h : p.entries.find? (fun e => decide (e.1 = k)) with
  | none => rfl
  | some e => rfl

theorem Partition.get_weight_le (p : Partition) (k : Nat)
    (hw : weightOf p.entries ≤ p.cap) :
    weightOf (p.get k).2.entries ≤ p.cap := by
  unfold Partition.get
  cases h : p.entries.find? (fun e => decide (e.1 = k)) with
  | none => exact hw
  | some e =>
    dsimp only
    have hm : e ∈ p.entries := List.mem_of_find?_eq_some h
    have hpe := List.find?_some h
    have he2 : e ∈ p.entries.filter fun e2 => decide (e2.1 = k) :=
      List.mem_filter.mpr ⟨hm, hpe⟩
    have hle := weight_mem_le _ e he2
    have hsplit := weightOf_split p.entries k
    simp only [weightOf, List.map_cons, List.sum_cons] at hw hle hsplit ⊢
    omega

theorem Partition.insert_cap (p : Partition) (k : Nat) (v : List Nat) :
    (p.insert k v).cap = p.cap := by
  unfold Partition.insert
  split <;> rfl

theorem Partition.insert_weight_le (p : Partition) (k : Nat) (v : List Nat)
    (hw : weightOf p.entries ≤ p.cap) :
    weightOf (p.insert k v).entries ≤ p.cap := by
  unfold Partition.insert
  split
  · exact hw
  · rename_i h
    dsimp only
    have hfit := shrinkToFit_fits p.cap v.length (by omega)
      (p.entries.filter fun e => decide (e.1 ≠ k)).length
      (p.entries.filter fun e => decide (e.1 ≠ k)) (le_refl _)
    simp only [weightOf, List.map_cons, List.sum_cons] at hfit ⊢
    omega

/-- All partitions share the per-partition capacity and respect it. -/
def cacheInv (cap : Nat) (c : MemCache) : Prop :=
  ∀ p ∈ c.partitions, p.cap = cap ∧ weightOf p.entries ≤ cap

theorem cacheInv_new (b C : Nat) : cacheInv (C / 2 ^ b) (MemCache.new b C) := by
  intro p hp
  simp only [MemCache.new] at hp
  have := List.eq_of_mem_replicate hp
  subst this
  exact ⟨rfl, by simp [weightOf]⟩

theorem applyOp_inv (cap : Nat) (c : MemCache) (op : CacheOp)
    (h : cacheInv cap c) : cacheInv cap (c.applyOp op) := by
  cases op with
  | get k =>
    simp only [MemCache.applyOp]
    cases hg : c.partitions.get? (Nat.land k c.partitionMask) with
    | none => exact h
    | some p =>
      intro p2 hp2
      dsimp only at hp2
      rcases List.mem_or_eq_of_mem_set hp2 with hmem | rfl
      · exact h p2 hmem
      · have hp := h p (List.get?_mem hg)
        refine ⟨by rw [Partition.get_cap]; exact hp.1, ?_⟩
        have := Partition.get_weight_le p k (hp.1 ▸ hp.2)
        rw [hp.1] at this
        exact this
  | insert k v =>
    simp only [MemCache.applyOp]
    cases hg : c.partitions.get? (Nat.land k c.partitionMask) with
    | none => exact h
    | some p =>
      intro p2 hp2
      dsimp only at hp2
      rcases List.mem_or_eq_of_mem_set hp2 with hmem | rfl
      · exact h p2 hmem
      · have hp := h p (List.get?_mem hg)
        refine ⟨by rw [Partition.insert_cap]; exact hp.1, ?_⟩
        have := Partition.insert_weight_le p k v (hp.1 ▸ hp.2)
        rw [hp.1] at this
        exact this

theorem runOps_inv (cap : Nat) (ops : List CacheOp) :
    ∀ c, cacheInv cap c → cacheInv cap (c.runOps ops) := by
  induction ops with
  | nil => intro c h; exact h
  | cons op rest ih =>
    intro c h
    exact ih (c.applyOp op) (applyOp_inv cap c op h)

theorem applyOp_partitions_length (c : MemCache) (op : CacheOp) :
    (c.applyOp op).partitions.length = c.partitions.length := by
  cases op with
  | get k =>
    simp only [MemCache.applyOp]
    cases hg : c.partitions.get? (Nat.land k c.partitionMask) with
    | none => rfl
    | some p => simp [List.length_set]
  | insert k v =>
    simp only [MemCache.applyOp]
    cases hg : c.partitions.get? (Nat.land k c.partitionMask) with
    | none => rfl
    | some p => simp [List.length_set]

theorem runOps_partitions_length (ops : List CacheOp) :
    ∀ c : MemCache, (c.runOps ops).partitions.length = c.partitions.length := by
  induction ops with
  | nil => intro c; rfl
  | cons op rest ih =>
    intro c
    rw [show MemCache.runOps c (op :: rest) = MemCache.runOps (c.applyOp op) rest from rfl,
      ih, applyOp_partitions_length]

theorem sum_le_length_mul (l : List Nat) (cap : Nat)
    (h : ∀ x ∈ l, x ≤ cap) : l.sum ≤ l.length * cap := by
  induction l with
  | nil => simp
  | cons a rest ih =>
    simp only [List.sum_cons, List.length_cons]
    have h1 := h a (List.mem_cons_self a rest)
    have h2 := ih fun x hx => h x (List.mem_cons_of_mem a hx)
    have : (rest.length + 1) * cap = rest.length * cap + cap := by ring
    omega

theorem totalBytes_le (c : MemCache) (cap : Nat) (hinv : cacheInv cap c) :
    c.totalBytes ≤ c.partitions.length * cap := by
  unfold MemCache.totalBytes
  have hlen : (c.partitions.map fun p => weightOf p.entries).length
      = c.partitions.length := List.length_map _ _
  rw [← hlen]
  apply sum_le_length_mul
  intro x hx
  obtain ⟨p, hp, rfl⟩ := List.mem_map.mp hx
  exact (hinv p hp).2

theorem set_get?_self {α : Type} (l : List α) (i : Nat) (p : α)
    (h : l.get? i = some p) : l.set i p = l := by
  induction l generalizing i with
  | nil => rfl
  | cons a rest ih =>
    cases i with
    | zero =>
      simp only [List.get?] at h
      cases h
      rfl
    | succ n =>
      simp only [List.get?] at h
      simp [List.set, ih n h]

/-- Claim C8: a cache built with `partition_bits` `b` and capacity `C` has
exactly `2 ^ b` partitions; after any sequence of gets and inserts the
total bytes held never exceed `N * ceil(C / N)` with `N = 2 ^ b` (each
partition holds at most its capacity `C / N`); inserting a value larger
than the partition capacity leaves the cache unchanged (the
`put_with_weight` error is ignored); and in the S5 scenario (capacity 13,
one partition, three 5-byte inserts) the partition keeps exactly the two
most recent entries, evicting the least recently used. -/
theorem c8_partitioned_cache (b C : Nat) (ops : List CacheOp)
    (k : Nat) (v : List Nat) (hbig : C / 2 ^ b < v.length) :
    (MemCache.runOps (MemCache.new b C) ops).partitions.length = 2 ^ b ∧
    (MemCache.runOps (MemCache.new b C) ops).totalBytes
      ≤ 2 ^ b * ((C + 2 ^ b - 1) / 2 ^ b) ∧
    MemCache.applyOp (MemCache.runOps (MemCache.new b C) ops)
        (.insert k v)
      = MemCache.runOps (MemCache.new b C) ops ∧
    (MemCache.runOps (MemCache.new 0 13)
        [.insert 1 (List.replicate 5 9), .insert 2 (List.replicate 5 9),
         .insert 3 (List.replicate 5 9)]).partitions.map
        (fun p => p.entries.map Prod.fst)
      = [[3, 2]] := by
  have hinv := runOps_inv (C / 2 ^ b) ops (MemCache.new b C) (cacheInv_new b C)
  have hlen : (MemCache.runOps (MemCache.new b C) ops).partitions.length = 2 ^ b := by
    rw [runOps_partitions_length]
    simp [MemCache.new]
  refine ⟨hlen, ?_, ?_, by rfl⟩
  · have h1 := totalBytes_le (MemCache.runOps (MemCache.new b C) ops)
      (C / 2 ^ b) hinv
    rw [hlen] at h1
    have h2 : C / 2 ^ b ≤ (C + 2 ^ b - 1) / 2 ^ b :=
      Nat.div_le_div_right (by have := Nat.one_le_two_pow (n := b); omega)
    calc (MemCache.runOps (MemCache.new b C) ops).totalBytes
        ≤ 2 ^ b * (C / 2 ^ b) := h1
      _ ≤ 2 ^ b * ((C + 2 ^ b - 1) / 2 ^ b) := Nat.mul_le_mul_left _ h2
  · simp only [MemCache.applyOp]
    cases hg : (MemCache.runOps (MemCache.new b C) ops).partitions.get?
        (Nat.land k (MemCache.runOps (MemCache.new b C) ops).partitionMask) with
    | none => rfl
    | some p =>
      have hp := hinv p (List.get?_mem hg)
      have hins : p.insert k v = p := by
        unfold Partition.insert
        rw [if_pos (by rw [hp.1]; exact hbig)]
      dsimp only
      rw [hins, set_get?_self _ _ _ hg]

/-- Witness for C8 at `b = 0`, `C = 13`, no operations, and a 14-byte
value, which exceeds the single partition's capacity. -/
theorem c8_witness :
    (MemCache.runOps (MemCache.new 0 13) []).partitions.length = 2 ^ 0 ∧
    (MemCache.runOps (MemCache.new 0 13) []).totalBytes
      ≤ 2 ^ 0 * ((13 + 2 ^ 0 - 1) / 2 ^ 0) ∧
    MemCache.applyOp (MemCache.runOps (MemCache.new 0 13) [])
        (.insert 0 (List.replicate 14 0))
      = MemCache.runOps (MemCache.new 0 13) [] ∧
    (MemCache.runOps (MemCache.new 0 13)
        [.insert 1 (List.replicate 5 9), .insert 2 (List.replicate 5 9),
         .insert 3 (List.replicate 5 9)]).partitions.map
        (fun p => p.entries.map Prod.fst)
      = [[3, 2]] :=
  c8_partitioned_cache 0 13 [] 0 (List.replicate 14 0) (by simp)

/-- Source translation of `TableOpenStage`: `Success` carries whether a
table handle exists (`Option<SpaceAndTable>` as a flag), `Failed` the error
(as a code). -/
inductive TableOpenStage where
  | recoverTableMeta
  | recoverTableData
  | success (found : Bool)
  | failed (e : Nat)
deriving DecidableEq, Repr

/-- Per-table oracles of the environment the shard opener runs against:
whether the table is already open at init, the manifest meta-recovery
result, whether a table-data handle exists after meta recovery, and the
WAL replay result. -/
structure ShardEnv where
  initiallyOpen : Nat → Bool
  metaResult : Nat → Except Nat Unit
  foundAfterMeta : Nat → Bool
  replayResult : Nat → Except Nat Unit

/-- One recovery action, for tracking the order of the two phases. -/
inductive RecoverEvent where
  | meta (t : Nat)
  | replay (t : Nat)
deriving DecidableEq, Repr

/-- Source translation of `ShardOpener::init`: an already-open table starts
in `Success`, every other one in `RecoverTableMeta`. -/
def ShardOpener.init (env : ShardEnv) (tables : List Nat) :
    List (Nat × TableOpenStage) :=
  tables.map fun t =>
    (t, if env.initiallyOpen t then TableOpenStage.success true
        else TableOpenStage.recoverTableMeta)

/-- Source translation of `ShardOpener::recover_table_metas` (phase A):
per table in `RecoverTableMeta`, run the manifest recovery — an error
moves only that table to `Failed`, success moves it to `RecoverTableData`
or `Success(None)`; `Success` tables are skipped; any other state is a
global error. Also returns the recovery events in order. -/
def recoverTableMetas (env : ShardEnv) :
    List (Nat × TableOpenStage) →
    Except Unit (List (Nat × TableOpenStage) × List RecoverEvent)
  | [] => .ok ([], [])
  | (t, st) :: rest =>
    match st with
    | .recoverTableMeta =>
      let newSt :=
        match env.metaResult t with
        | .ok _ =>
          if env.foundAfterMeta t then TableOpenStage.recoverTableData
          else TableOpenStage.success false
        | .error e => TableOpenStage.failed e
      match recoverTableMetas env rest with
      | .ok (sts, evs) => .ok ((t, newSt) :: sts, RecoverEvent.meta t :: evs)
      | .error e => .error e
    | .success b =>
      match recoverTableMetas env rest with
      | .ok (sts, evs) => .ok ((t, TableOpenStage.success b) :: sts, evs)
      | .error e => .error e
    | _ => .error ()

/-- Source translation of `ShardOpener::recover_table_datas` (phase B):
a leftover `RecoverTableMeta` state is a global error; otherwise the
tables in `RecoverTableData` are replayed as one batch, each moving to
`Success` or `Failed` by its own result, and the other states are kept. -/
def recoverTableDatas (env : ShardEnv)
    (states : List (Nat × TableOpenStage)) :
    Except Unit (List (Nat × TableOpenStage) × List RecoverEvent) :=
  if states.any fun s => decide (s.2 = TableOpenStage.recoverTableMeta) then
    .error ()
  else
    .ok (states.map fun s =>
      (s.1, match s.2 with
        | .recoverTableData =>
          match env.replayResult s.1 with
          | .ok _ => TableOpenStage.success true
          | .error e => TableOpenStage.failed e
        | st => st),
      (states.filter fun s =>
        decide (s.2 = TableOpenStage.recoverTableData)).map
          fun s => RecoverEvent.replay s.1)

/-- Collation loop at the end of `ShardOpener::open`: every table must end
in `Success` or `Failed`; any other state is a global error. -/
def collateStates :
    List (Nat × TableOpenStage) → Except Unit (List (Nat × Except Nat Bool))
  | [] => .ok []
  | (t, st) :: rest =>
    match st with
    | .success b =>
      match collateStates rest with
      | .ok results => .ok ((t, .ok b) :: results)
      | .error e => .error e
    | .failed e =>
      match collateStates rest with
      | .ok results => .ok ((t, .error e) :: results)
      | .error e2 => .error e2
    | _ => .error ()

/-- Source translation of `ShardOpener::open`: phase A, then phase B, then
collate the per-table results; the recovery events are returned in order. -/
def ShardOpener.open (env : ShardEnv) (tables : List Nat) :
    Except Unit (List (Nat × Except Nat Bool) × List RecoverEvent) :=
  match recoverTableMetas env (ShardOpener.init env tables) with
  | .error e => .error e
  | .ok (sts1, evsA) =>
    match recoverTableDatas env sts1 with
    | .error e => .error e
    | .ok (sts2, evsB) =>
      match collateStates sts2 with
      | .ok results => .ok (results, evsA ++ evsB)
      | .error e => .error e

/-- The stage a table reaches after phase A, by its own oracles alone. -/
def stageAfterMeta (env : ShardEnv) (t : Nat) : TableOpenStage :=
  if env.initiallyOpen t then .success true
  else
    match env.metaResult t with
    | .error e => .failed e
    | .ok _ =>
      if env.foundAfterMeta t then .recoverTableData else .success false

/-- The stage a table reaches after phase B, by its own oracles alone. -/
def stageFinal (env : ShardEnv) (t : Nat) : TableOpenStage :=
  match stageAfterMeta env t with
  | .recoverTableData =>
    match env.replayResult t with
    | .ok _ => .success true
    | .error e => .failed e
  | st => st

/-- The per-table result `open` reports, by the table's own oracles. -/
def expectedTableOutcome (env : ShardEnv) (t : Nat) : Except Nat Bool :=
  match stageFinal env t with
  | .success b => .ok b
  | .failed e => .error e
  | _ => .ok false

theorem stageAfterMeta_ne_meta (env : ShardEnv) (t : Nat) :
    stageAfterMeta env t ≠ .recoverTableMeta := by
  unfold stageAfterMeta
  by_cases hop : env.initiallyOpen t
  · simp [hop]
  · simp only [hop, if_false, Bool.false_eq_true]
    cases hm : env.metaResult t with
    | error e => simp
    | ok u =>
      by_cases hf : env.foundAfterMeta t <;> simp [hf]

theorem recoverTableMetas_init (env : ShardEnv) (tables : List Nat) :
    recoverTableMetas env (ShardOpener.init env tables)
      = .ok (tables.map fun t => (t, stageAfterMeta env t),
          (tables.filter fun t => ! env.initiallyOpen t).map RecoverEvent.meta) := by
  induction tables with
  | nil => rfl
  | cons t rest ih =>
    simp only [ShardOpener.init, List.map_cons] at ih ⊢
    by_cases hop : env.initiallyOpen t
    · rw [if_pos hop]
      simp only [recoverTableMetas, ih]
      rw [List.filter_cons_of_neg (by simp [hop])]
      simp only [stageAfterMeta, if_pos hop]
    · rw [if_neg hop]
      simp only [recoverTableMetas, ih]
      rw [List.filter_cons_of_pos (by simp [hop])]
      simp only [List.map_cons]
      have hst : (match env.metaResult t with
          | .ok _ =>
            if env.foundAfterMeta t then TableOpenStage.recoverTableData
            else TableOpenStage.success false
          | .error e => TableOpenStage.failed e) = stageAfterMeta env t := by
        simp only [stageAfterMeta, if_neg hop]
        cases env.metaResult t <;> rfl
      rw [hst]

theorem recoverTableDatas_afterMeta (env : ShardEnv) (tables : List Nat) :
    recoverTableDatas env (tables.map fun t => (t, stageAfterMeta env t))
      = .ok (tables.map fun t => (t, stageFinal env t),
          ((tables.map fun t => (t, stageAfterMeta env t)).filter fun s =>
            decide (s.2 = TableOpenStage.recoverTableData)).map
              fun s => RecoverEvent.replay s.1) := by
  have hmap : (tables.map fun t => (t, stageAfterMeta env t)).map
      (fun s => (s.1, match s.2 with
        | TableOpenStage.recoverTableData =>
          match env.replayResult s.1 with
          | .ok _ => TableOpenStage.success true
          | .error e => TableOpenStage.failed e
        | st => st))
      = tables.map fun t => (t, stageFinal env t) := by
    rw [List.map_map]
    apply List.map_congr_left
    intro t _
    simp only [Function.comp_apply]
    exact congrArg (fun x => (t, x)) (by simp only [stageFinal])
  have hany : ¬ ((tables.map fun t => (t, stageAfterMeta env t)).any fun s =>
      decide (s.2 = TableOpenStage.recoverTableMeta)) = true := by
    intro hany
    rw [List.any_eq_true] at hany
    obtain ⟨s, hsmem, hp⟩ := hany
    obtain ⟨t, _, rfl⟩ := List.mem_map.mp hsmem
    simp only [decide_eq_true_eq] at hp
    exact stageAfterMeta_ne_meta env t hp
  unfold recoverTableDatas
  rw [if_neg hany, hmap]

theorem collate_final (env : ShardEnv) (tables : List Nat) :
    collateStates (tables.map fun t => (t, stageFinal env t))
      = .ok (tables.map fun t => (t, expectedTableOutcome env t)) := by
  induction tables with
  | nil => rfl
  | cons t rest ih =>
    simp only [List.map_cons]
    have hshape : (∃ b, stageFinal env t = .success b) ∨
        (∃ e, stageFinal env t = .failed e) := by
      unfold stageFinal
      cases h : stageAfterMeta env t with
      | recoverTableMeta => exact absurd h (stageAfterMeta_ne_meta env t)
      | recoverTableData =>
        cases env.replayResult t with
        | ok u => exact Or.inl ⟨true, rfl⟩
        | error e => exact Or.inr ⟨e, rfl⟩
      | success b => exact Or.inl ⟨b, rfl⟩
      | failed e => exact Or.inr ⟨e, rfl⟩
    rcases hshape with ⟨b, hb⟩ | ⟨e, he⟩
    · simp only [collateStates, hb, ih, expectedTableOutcome]
    · simp only [collateStates, he, ih, expectedTableOutcome]

/-- Claim C9: for every environment and table list, `ShardOpener::open`
returns a per-table result map in which every requested table ends in
`Success` (`Ok`) or `Failed` (`Err`), each table's outcome determined by
its own recovery results alone (one table's failure does not disturb the
others); and the emitted recovery events split as all of phase A's
metadata recoveries followed by all of phase B's WAL replays. -/
theorem c9_shard_open_phases (env : ShardEnv) (tables : List Nat) :
    ∃ evsA evsB,
      ShardOpener.open env tables
        = .ok (tables.map fun t => (t, expectedTableOutcome env t),
            evsA ++ evsB) ∧
      (∀ ev ∈ evsA, ∃ t, ev = RecoverEvent.meta t) ∧
      (∀ ev ∈ evsB, ∃ t, ev = RecoverEvent.replay t) := by
  refine ⟨(tables.filter fun t => ! env.initiallyOpen t).map RecoverEvent.meta,
    ((tables.map fun t => (t, stageAfterMeta env t)).filter fun s =>
      decide (s.2 = TableOpenStage.recoverTableData)).map
        fun s => RecoverEvent.replay s.1, ?_, ?_, ?_⟩
  · unfold ShardOpener.open
    rw [recoverTableMetas_init]
    dsimp only
    rw [recoverTableDatas_afterMeta]
    dsimp only
    rw [collate_final]
  · intro ev hev
    obtain ⟨t, _, rfl⟩ := List.mem_map.mp hev
    exact ⟨t, rfl⟩
  · intro ev hev
    obtain ⟨s, _, rfl⟩ := List.mem_map.mp hev
    exact ⟨s.1, rfl⟩
